import Mathlib

/-!
# Verification of the go-scdo transaction-processing core

A shallow embedding, in Lean 4, of the parts of the `scdoproject/go-scdo`
node that the frozen claims are about:

* the difficulty retarget (`consensus/utils` `GetDifficult`),
* the issuance schedule (`consensus` `GetReward`),
* the duplicate-tx window (`core` `CachedTxs`),
* the random-matrix PoW seal/verify (`consensus/zpow` engine),
* the matrix generator (`consensus/zpow` `generateRandomMat`),
* the generic object pool (`core` `Pool`, `txCollection`, `pendingQueue`),
* the two-stage debt pool (`core` `DebtPool`, `core/types` `Debt.Validate`).

Go `uint64` values are embedded as `Nat` with explicit `% 2^64` wherever the
source can overflow or wrap; `big.Int` values are embedded as `Int` (or `Nat`
when the source guarantees non-negativity); Go maps are embedded as
association lists, with map-delete as key-filtering (which is exactly
map-delete semantics, independent of list order); fallible functions return
`Option` errors, mirroring Go's `error` results.

Where a Go function is genuinely ambient-effectful (wall-clock timestamps,
`math/rand` draws), the effect is passed explicitly: the current time is an
argument, and random draws are served by an explicit oracle argument.
-/

namespace Scdo

/-! ## Consensus constants (`common/constant.go`) -/

/-- `common.ShardCount = 4`. -/
def ShardCount : Nat := 4

/-- `common.ScdoForkHeight = 2979594`. -/
def ScdoForkHeight : Nat := 2979594

/-- `common.SecondForkHeight = ScdoForkHeight`. -/
def SecondForkHeight : Nat := ScdoForkHeight

/-- `common.EmeryForkHeight = ScdoForkHeight`. -/
def EmeryForkHeight : Nat := ScdoForkHeight

/-! ## Difficulty retarget (`consensus/utils`, `GetDifficult`)

The Go function takes `time uint64` and the parent header, and computes on
`*big.Int`.  `interval := (time - parentTime) / 20` is a `uint64`
subtraction (wrapping) followed by `uint64` division, and the result is
converted by `int64(interval)` (two's-complement reinterpretation) before
entering the `big.Int` arithmetic.  Both steps are embedded exactly. -/

/-- The header fields `GetDifficult` reads: height, create-timestamp
(as the `uint64` the caller passes / stores) and difficulty.
Difficulty is a `big.Int` that the chain keeps positive; we embed it as `Nat`
inside the header and cast to `Int` in the arithmetic. -/
structure BlockHeaderDiff where
  height : Nat
  createTimestamp : Nat
  difficulty : Nat
  deriving Repr, DecidableEq

/-- Go `uint64` subtraction `a - b` (wraparound), for `a b < 2^64`. -/
def sub64 (a b : Nat) : Nat := (a + 2 ^ 64 - b % 2 ^ 64) % 2 ^ 64

/-- Go conversion `int64(u)` of a `uint64` value `u < 2^64`:
two's-complement reinterpretation. -/
def toInt64 (u : Nat) : Int := if u < 2 ^ 63 then (u : Int) else (u : Int) - 2 ^ 64

/-- `utils.GetDifficult(time, parentHeader)`:
`diff = parentDiff + parentDiff / D * max(1 - (time - parentTime)/20, -99)`
with `D = 2048` below `SecondForkHeight` and `1024` at or above it; the
genesis parent's difficulty is returned unchanged. -/
def GetDifficult (time : Nat) (parentHeader : BlockHeaderDiff) : Int :=
  let parentDifficult : Int := parentHeader.difficulty
  let parentTime := parentHeader.createTimestamp
  if parentHeader.height = 0 then parentDifficult
  else
    let interval : Nat := sub64 time parentTime / 20
    let x0 : Int := 1 - toInt64 interval
    let x : Int := if x0 < -99 then -99 else x0
    let y : Int :=
      if parentHeader.height < SecondForkHeight then parentDifficult / 2048
      else parentDifficult / 1024
    parentDifficult + x * y

/-- The retarget formula exactly as the specification words it:
`parent_diff + (parent_diff / D) * max(1 - (ts - parent_ts)/20, -99)` with
integer division, `D = 2048` below the fork height and `1024` at or above,
and the genesis difficulty carried forward unchanged. -/
def specDifficulty (ts : Nat) (parentHeader : BlockHeaderDiff) : Int :=
  let pd : Int := parentHeader.difficulty
  if parentHeader.height = 0 then pd
  else
    let d : Int := if parentHeader.height < SecondForkHeight then 2048 else 1024
    pd + (pd / d) * max (1 - (((ts - parentHeader.createTimestamp) / 20 : Nat) : Int)) (-99)

/-! ## Issuance schedule (`consensus`, `GetReward`)

`rewardTableCoin[i] = convertScdoToWen(table[i] / ShardCount)` and
`tailRewardCoin = convertScdoToWen(6 / ShardCount)` where the division is
`float64` and `convertScdoToWen` multiplies by the (exact, power-of-ten)
Wen unit.  Every `table[i] / 4` is exactly representable and the product
with the unit is exact, so we embed the rewards as exact rationals in
coin units; the claims compare the table entries and the era logic, which
are independent of the unit. -/

/-- The reward table in coin units, already divided by `ShardCount`:
`[24,16,12,10,8,8,6,6].map (· / 4)`. -/
def rewardTableCoin : List ℚ := [24, 16, 12, 10, 8, 8, 6, 6].map (fun r => r / (ShardCount : ℚ))

/-- The tail reward `6 / ShardCount` in coin units. -/
def tailRewardCoin : ℚ := 6 / (ShardCount : ℚ)

/-- `blockNumberPerEra = 3150000`. -/
def blockNumberPerEra : Nat := 3150000

/-- `consensus.GetReward(blockHeight)`: `era := blockHeight / blockNumberPerEra`;
the table entry for `era < len`, the tail value for `era = len`, zero for
`era > len`.  (`int(blockHeight / blockNumberPerEra)` cannot wrap: it is at
most `(2^64-1)/3150000 < 2^63`.) -/
def GetReward (blockHeight : Nat) : ℚ :=
  let era := blockHeight / blockNumberPerEra
  if era < rewardTableCoin.length then rewardTableCoin.getD era 0
  else if era = rewardTableCoin.length then tailRewardCoin
  else 0

/-- The issuance schedule exactly as the claim words it: table entry for
`era` in range, the tail value `6 / shard_count` after the table is
exhausted *until `era > len + 1`*, and `0` thereafter. -/
def specReward (blockHeight : Nat) : ℚ :=
  let era := blockHeight / blockNumberPerEra
  if era < rewardTableCoin.length then rewardTableCoin.getD era 0
  else if era > rewardTableCoin.length + 1 then 0
  else tailRewardCoin

/-- The issuance schedule as the code actually computes it, in plain terms:
the per-era table value divided by the shard count while `era < 8`, the tail
value `6 / shard_count` exactly at `era = 8`, and `0` for every `era ≥ 9`. -/
def specRewardAmended (blockHeight : Nat) : ℚ :=
  let era := blockHeight / blockNumberPerEra
  if era < 8 then ([24, 16, 12, 10, 8, 8, 6, 6] : List ℚ).getD era 0 / 4
  else if era = 8 then 6 / 4
  else 0

/-! ## Duplicate-tx window (`core` `CachedTxs`)

The Go map `content map[common.Hash]*types.Transaction` is embedded as its
key list (the values never influence the claims).  `math/rand` draws are
served by an explicit oracle `Nat → Nat`: the draw for loop counter `i` is
`oracle i % len(content)`, matching `rand.Intn(len(c.content))`, and
`selRand` walking the map to that index is embedded as selecting the entry
at that index. -/

/-- `core.PercentDelete = 20`: on overflow, `1/PercentDelete` of the map is
(supposed to be) deleted. -/
def PercentDelete : Nat := 20

/-- The key set of a `CachedTxs` window. -/
structure CachedTxs where
  capacity : Nat
  content : List Nat
  deriving Repr, DecidableEq

/-- The loop body of `CachedTxs.randomDeletes`:
`for i := 0; i < deleteSize; i++ { k, _ := c.selRand(); delete(c.content, k); i++ }`.
Note the loop counter is incremented twice per iteration — once in the body
and once in the `for` post statement — exactly as in the source.  The `fuel`
argument only makes the recursion structural; `randomDeletes` passes enough
fuel that it never runs out before `i < deleteSize` fails. -/
def randomDeletesLoop (oracle : Nat → Nat) (deleteSize : Nat) :
    Nat → Nat → List Nat → List Nat
  | 0, _, content => content
  | fuel + 1, i, content =>
    if i < deleteSize then
      randomDeletesLoop oracle deleteSize fuel (i + 1 + 1)
        (content.eraseIdx (oracle i % content.length))
    else content

/-- `CachedTxs.randomDeletes`: `deleteSize := len(c.content) / PercentDelete`,
then the double-incrementing deletion loop. -/
def CachedTxs.randomDeletes (oracle : Nat → Nat) (c : CachedTxs) : CachedTxs :=
  let deleteSize := c.content.length / PercentDelete
  { c with content := randomDeletesLoop oracle deleteSize deleteSize 0 c.content }

/-- `CachedTxs.add`: when `len(content) ≥ capacity` run `randomDeletes`,
then insert the key (`c.content[tx.Hash] = tx`; inserting a present key
leaves the key set unchanged). -/
def CachedTxs.add (oracle : Nat → Nat) (c : CachedTxs) (txHash : Nat) : CachedTxs :=
  let c1 := if c.content.length ≥ c.capacity then c.randomDeletes oracle else c
  if txHash ∈ c1.content then c1
  else { c1 with content := txHash :: c1.content }

/-! ## Random-matrix PoW (`consensus/zpow/engine.go`)

The engine hashes a header (`crypto` Keccak — out of scope, embedded as an
arbitrary function argument `hashFn`), generates a 30×30 matrix from the
hash and the height (`generateRandomMat`), and takes its determinant with
gonum's float64 `mat.Det` (out of scope; the *composition*
`det ∘ generateRandomMat` is embedded as an arbitrary function argument
`detAt : hash → height → ℚ`, a deterministic function — which is all the
round-trip claim depends on).  `big.NewFloat(res).Cmp(new(big.Float).SetInt target)`
compares the exact float64 value with the exact integer target, so the
comparison is exact on ℚ. -/

/-- `zpow.maxDet30x30 = 2 * 10^30`. -/
def maxDet30x30 : Nat := 2 * 10 ^ 30

/-- `zpow.multiplier = 3000000000`. -/
def multiplier : Nat := 3000000000

/-- `zpow.getMiningTarget`: `difficulty * multiplier`, capped at `maxDet30x30`. -/
def getMiningTarget (difficulty : Nat) : Nat :=
  let target := difficulty * multiplier
  if target > maxDet30x30 then maxDet30x30 else target

/-- The header fields the zpow seal/verify path touches.  `rest` stands for
every other serialized header field (parent hash, roots, …): the abstract
`hashFn` may depend on all of them. -/
structure ZHeader where
  height : Nat
  difficulty : Nat
  witness : String
  rest : Nat
  deriving Repr, DecidableEq

/-- A sealed block as published on the `results` channel: the mutated header
and its cached hash (`block.Header = header; block.HeaderHash = hash`). -/
structure ZBlock where
  header : ZHeader
  headerHash : Nat
  deriving Repr, DecidableEq

/-- One candidate-nonce step of `ZpowEngine.StartMining`: set
`header.Witness = []byte(strconv.FormatUint(nonce, 10))`, hash the mutated
header, recompute the matrix determinant, and publish the block exactly when
`det ≥ target` (the target computed from the block's difficulty). -/
def startMiningAttempt (hashFn : ZHeader → Nat) (detAt : Nat → Nat → ℚ)
    (header : ZHeader) (nonce : Nat) : Option ZBlock :=
  let header' := { header with witness := toString nonce }
  let hash := hashFn header'
  let det := detAt hash header'.height
  if (getMiningTarget header.difficulty : ℚ) ≤ det then some ⟨header', hash⟩ else none

/-- Consensus errors distinguished by the zpow claims. -/
inductive ZpowErr where
  | blockNonceInvalid
  deriving Repr, DecidableEq

/-- `ZpowEngine.verifyTarget`: recompute the hash of the header as shipped
(`header.Clone().Hash()` — cloning copies all fields, so this is the hash of
the same field values), regenerate the matrix, and reject with
`consensus.ErrBlockNonceInvalid` iff its determinant is strictly below the
target for the header's difficulty. -/
def verifyTarget (hashFn : ZHeader → Nat) (detAt : Nat → Nat → ℚ)
    (header : ZHeader) : Option ZpowErr :=
  let hash := hashFn header
  let det := detAt hash header.height
  if det < (getMiningTarget header.difficulty : ℚ) then some .blockNonceInvalid else none

/-! ## Matrix generation (`zpow.generateRandomMat`)

`generateRandomMat` splits the 32-byte header hash into four big-endian
64-bit lanes, XORs the running seed with `lanes[i % 4]` at each row, builds
a fresh `scdorand` stream from the seed (`NewSource_EmeryFork` at or above
the fork height, the legacy `NewSource` below it), and per cell first
redraws the running seed with `Int63n(1<<63 - 1)` and then draws the cell
with `Int63n(3)` — in **both** fork branches. -/

/-- Modelled from the spec: the `scdorand` stream (package `scdorand`, not
under `src/`) — "an LCG-style stream is reseeded from `cur`".  The two
source constructors (`NewSource`, `NewSource_EmeryFork`) and the advancing
draw `Int63n` are abstract, constrained only by `Int63n`'s contract of
returning a value in `[0, n)`.  A stream state is a `Nat`; `int63n n s`
returns the drawn value and the advanced state. -/
structure StreamGen where
  seedLegacy : Nat → Nat
  seedEmery : Nat → Nat
  int63n : Nat → Nat → Nat × Nat
  int63n_range : ∀ n s, 0 < n → (int63n n s).1 < n

/-- Big-endian unsigned-64 view of (up to) eight bytes
(`binary.BigEndian.Uint64`; int64 reinterpretation is folded into the
abstract seed functions, which consume the 64-bit pattern). -/
def beUint64 (bs : List Nat) : Nat := bs.foldl (fun acc b => acc * 256 + b % 256) 0

/-- One cell step of a row: `curNum = randObj.Int63n(1<<63 - 1)` followed by
`matrix.Set(i, j, float64(randObj.Int63n(3)))`.  The accumulator carries
(cells so far, current `curNum`, stream state). -/
def genRowStep (g : StreamGen) (acc : List Nat × Nat × Nat) : List Nat × Nat × Nat :=
  let p1 := g.int63n (2 ^ 63 - 1) acc.2.2
  let p2 := g.int63n 3 p1.2
  (acc.1 ++ [p2.1], p1.1, p2.2)

/-- One row of the matrix: starting from stream state `s0`, run the cell
step `dim` times.  Returns the cells and the final `curNum` (which enters
the next row's XOR). -/
def genRow (g : StreamGen) (dim : Nat) (s0 : Nat) (cur0 : Nat) : List Nat × Nat :=
  let r := (List.range dim).foldl (fun acc _ => genRowStep g acc) ([], cur0, s0)
  (r.1, r.2.1)

/-- The four 64-bit lanes of a 32-byte hash. -/
def hashLanes (hashBytes : List Nat) : List Nat :=
  [beUint64 (hashBytes.take 8), beUint64 ((hashBytes.drop 8).take 8),
   beUint64 ((hashBytes.drop 16).take 8), beUint64 ((hashBytes.drop 24).take 8)]

/-- One row step of the matrix build: `curNum ^= hashSeed[i % 4]`, reseed a
stream from `curNum` with the given source constructor, draw the row. -/
def matStep (g : StreamGen) (lanes : List Nat) (seedF : Nat → Nat) (dim : Nat)
    (acc : List (List Nat) × Nat) (i : Nat) : List (List Nat) × Nat :=
  let cur1 := Nat.xor acc.2 (lanes.getD (i % 4) 0)
  let row := genRow g dim (seedF cur1) cur1
  (acc.1 ++ [row.1], row.2)

/-- `zpow.generateRandomMat(hash, dim, height)`: per row `i`,
`cur ^= lanes[i % 4]`, reseed (`NewSource_EmeryFork` at or above
`EmeryForkHeight`, legacy `NewSource` below), then draw the row —
`Int63n(3)` cells in both branches. -/
def generateRandomMat (g : StreamGen) (hashBytes : List Nat) (dim : Nat)
    (height : Nat) : List (List Nat) :=
  ((List.range dim).foldl
    (matStep g (hashLanes hashBytes)
      (fun cur => if EmeryForkHeight ≤ height then g.seedEmery cur else g.seedLegacy cur)
      dim)
    ([], 0)).1

/-- `generateRandomMat` with a fixed source constructor, used to state which
source the fork selects. -/
def generateRandomMatWith (g : StreamGen) (seedF : Nat → Nat) (hashBytes : List Nat)
    (dim : Nat) : List (List Nat) :=
  ((List.range dim).foldl (matStep g (hashLanes hashBytes) seedF dim) ([], 0)).1

/-- A concrete conforming stream: both sources are the identity, every
`Int63n(3)` draw returns `2`, every other draw returns `0`. -/
def streamAlwaysTwo : StreamGen where
  seedLegacy := id
  seedEmery := id
  int63n := fun n s => (if n = 3 then 2 else 0, s + 1)
  int63n_range := by
    intro n s hn
    by_cases h3 : n = 3
    · simp [h3]
    · simp only [if_neg h3]
      exact hn

/-! ## Generic object pool (`core`: `txCollection`, `pendingQueue`, `Pool`)

`poolObject` is the capability set `{FromAccount, ToAccount, Nonce, Price,
GetHash, Size}`; accounts and hashes are embedded as `Nat`, prices as `Int`
(`big.Int`), insertion timestamps (`time.Now()` at `newPooledItem`) as an
explicit `now` argument.  Go maps become association lists: insert of a
fresh key is `cons`, delete is filtering the key out (exactly map-delete
semantics), and `len` of a map is the list length (the pool never inserts a
key it already holds — `addObject` is guarded by `Has`). -/

/-- The `poolObject` interface of `core`. -/
structure PoolObject where
  fromAcc : Nat
  toAcc : Nat
  nonce : Nat
  price : Int
  hash : Nat
  size : Nat
  deriving Repr, DecidableEq

/-- `core.poolItem`: the pool object plus its insertion timestamp (the heap
index bookkeeping of `common.BaseHeapItem` is representation-internal and
has no observable effect on the claims). -/
structure PoolItem where
  obj : PoolObject
  timestamp : Nat
  deriving Repr, DecidableEq

/-- `core.txCollection` (`part_025`): the nonce-keyed map of an account's
transactions.  The paired `common.Heap` (not under `src/`) is modelled from
the spec — "a min-heap keyed by nonce; `peek()` returns the lowest-nonce
item" — by computing the minimum of the entry list directly. -/
structure TxCollection where
  txs : List PoolItem
  deriving Repr, DecidableEq

/-- `txCollection.get(nonce)`. -/
def TxCollection.get (c : TxCollection) (nonce : Nat) : Option PoolItem :=
  c.txs.find? (fun it => it.obj.nonce == nonce)

/-- `txCollection.add(tx)`: replace in place when the nonce is present
(returning `false`), else push (returning `true`). -/
def TxCollection.add (c : TxCollection) (tx : PoolItem) : TxCollection × Bool :=
  match c.get tx.obj.nonce with
  | some _ =>
    (⟨c.txs.map (fun it => if it.obj.nonce == tx.obj.nonce then tx else it)⟩, false)
  | none => (⟨c.txs ++ [tx]⟩, true)

/-- Map-delete of a nonce key. -/
def TxCollection.removeNonce (c : TxCollection) (nonce : Nat) : TxCollection :=
  ⟨c.txs.filter (fun it => it.obj.nonce != nonce)⟩

/-- `txCollection.remove(nonce)`. -/
def TxCollection.remove (c : TxCollection) (nonce : Nat) : TxCollection × Bool :=
  match c.get nonce with
  | some _ => (c.removeNonce nonce, true)
  | none => (c, false)

/-- `txCollection.len()`. -/
def TxCollection.len (c : TxCollection) : Nat := c.txs.length

/-- One comparison step of the lowest-nonce scan. -/
def minNonceStep (acc : Option PoolItem) (it : PoolItem) : Option PoolItem :=
  match acc with
  | none => some it
  | some b => if it.obj.nonce < b.obj.nonce then some it else some b

/-- The lowest-nonce item of a list (ties to the earlier entry; nonces are
nodup in a well-formed collection, so ties cannot occur). -/
def minNonceItem (l : List PoolItem) : Option PoolItem :=
  l.foldl minNonceStep none

/-- `txCollection.peek()`: the lowest-nonce item. -/
def TxCollection.peek (c : TxCollection) : Option PoolItem := minNonceItem c.txs

/-- `txCollection.pop()`: remove and return the lowest-nonce item. -/
def TxCollection.pop (c : TxCollection) : TxCollection × Option PoolItem :=
  match c.peek with
  | none => (c, none)
  | some it => (c.removeNonce it.obj.nonce, some it)

/-- `txCollection.cmp(other)` (`part_025`): `1` (resp. `-1`) on higher
(resp. lower) head price, then `1` (resp. `-1`) on earlier (resp. later)
head timestamp, else `0`. -/
def TxCollection.cmp (c other : TxCollection) : Int :=
  match c.peek, other.peek with
  | none, none => 0
  | some _, none => 1
  | none, some _ => -1
  | some i, some j =>
    if i.obj.price < j.obj.price then -1
    else if j.obj.price < i.obj.price then 1
    else if i.timestamp < j.timestamp then 1
    else if j.timestamp < i.timestamp then -1
    else 0

/-- Modelled from the spec: `core.pendingQueue` (not under `src/`) — the
"max-heap over NonceCollections, compared by `(peek().price,
-peek().insertion_time)`" holding one collection per sender.  Embedded as
the association list `sender → txCollection`; the heap's max and the
`discard` minimum are computed from `txCollection.cmp` directly. -/
structure PendingQueue where
  colls : List (Nat × TxCollection)
  deriving Repr, DecidableEq

/-- `pendingQueue.get(account, nonce)`. -/
def PendingQueue.get (q : PendingQueue) (acc nonce : Nat) : Option PoolItem :=
  match q.colls.find? (fun p => p.1 == acc) with
  | some p => p.2.get nonce
  | none => none

/-- `pendingQueue.add(tx)`: into the sender's collection, creating it for a
new sender. -/
def PendingQueue.add (q : PendingQueue) (tx : PoolItem) : PendingQueue :=
  match q.colls.find? (fun p => p.1 == tx.obj.fromAcc) with
  | some _ =>
    ⟨q.colls.map (fun p => if p.1 == tx.obj.fromAcc then (p.1, (p.2.add tx).1) else p)⟩
  | none => ⟨q.colls ++ [(tx.obj.fromAcc, (TxCollection.add ⟨[]⟩ tx).1)]⟩

/-- Drop a sender's collection. -/
def PendingQueue.removeKey (q : PendingQueue) (acc : Nat) : PendingQueue :=
  ⟨q.colls.filter (fun p => p.1 != acc)⟩

/-- Replace a sender's collection. -/
def PendingQueue.updateKey (q : PendingQueue) (acc : Nat) (c : TxCollection) : PendingQueue :=
  ⟨q.colls.map (fun p => if p.1 == acc then (p.1, c) else p)⟩

/-- `pendingQueue.remove(account, nonce)`: remove from the sender's
collection, dropping the sender when its collection empties. -/
def PendingQueue.remove (q : PendingQueue) (acc nonce : Nat) : PendingQueue :=
  match q.colls.find? (fun p => p.1 == acc) with
  | none => q
  | some p =>
    let r := p.2.remove nonce
    if r.2 then (if r.1.len = 0 then q.removeKey acc else q.updateKey acc r.1)
    else q

/-- One comparison step of the best-collection scan. -/
def bestStep (acc : Option (Nat × TxCollection)) (p : Nat × TxCollection) :
    Option (Nat × TxCollection) :=
  match acc with
  | none => some p
  | some b => if p.2.cmp b.2 > 0 then some p else some b

/-- The best (highest-priority) sender collection, by `txCollection.cmp`;
ties keep the earlier entry. -/
def PendingQueue.bestColl (q : PendingQueue) : Option (Nat × TxCollection) :=
  q.colls.foldl bestStep none

/-- `pendingQueue.peek().peek()`: the head item of the best collection. -/
def PendingQueue.peekItem (q : PendingQueue) : Option PoolItem :=
  match q.bestColl with
  | some p => p.2.peek
  | none => none

/-- `pendingQueue.pop()`: pop the lowest-nonce item of the best collection
(`heap.Pop` returns the head, and the nonce key is deleted from the map),
dropping the sender when its collection empties. -/
def PendingQueue.pop (q : PendingQueue) : PendingQueue × Option PoolItem :=
  match q.bestColl with
  | none => (q, none)
  | some p =>
    match p.2.peek with
    | none => (q, none)
    | some itm =>
      ((if (p.2.removeNonce itm.obj.nonce).len = 0 then q.removeKey p.1
        else q.updateKey p.1 (p.2.removeNonce itm.obj.nonce)), some itm)

/-- Whether a collection's head price is strictly below the reference
price (`peek().price < price`; an empty collection never qualifies). -/
def headBelowB (price : Int) (p : Nat × TxCollection) : Bool :=
  match p.2.peek with
  | none => false
  | some it => it.obj.price < price

/-- One step of the `discard` scan: skip collections whose head price is
not strictly below `price`; among qualifying ones keep the `cmp`-least. -/
def discardStep (price : Int) (acc : Option (Nat × TxCollection)) (p : Nat × TxCollection) :
    Option (Nat × TxCollection) :=
  if headBelowB price p then
    match acc with
    | none => some p
    | some b => if p.2.cmp b.2 < 0 then some p else some b
  else acc

/-- `pendingQueue.discard(price)` (modelled from the spec: "returns the
lowest-priced sender *strictly below* `min_price`; used under capacity
pressure; returns `None` if no sender is below"): the `cmp`-least collection
whose head price is `< price`, removed from the queue. -/
def PendingQueue.discard (q : PendingQueue) (price : Int) : PendingQueue × Option (Nat × TxCollection) :=
  match q.colls.foldl (discardStep price) none with
  | none => (q, none)
  | some p => (q.removeKey p.1, some p)

/-- `pendingQueue.count()`: total number of pending items. -/
def PendingQueue.count (q : PendingQueue) : Nat := (q.colls.map (fun p => p.2.len)).sum

/-- `pendingQueue.empty()`. -/
def PendingQueue.isEmptyQ (q : PendingQueue) : Bool := q.colls.isEmpty

/-- All pending items of the queue. -/
def queueItems (q : PendingQueue) : List PoolItem := q.colls.flatMap (fun p => p.2.txs)

/-- The errors of `Pool.addObject` (`part_030`). -/
inductive PoolErr where
  | objectHashExists
  | objectPoolFull
  | objectNonceUsed
  | validationFailed
  deriving Repr, DecidableEq

/-- Association-list lookup standing for Go map indexing. -/
def mapGet (m : List (Nat × PoolItem)) (h : Nat) : Option PoolItem :=
  (m.find? (fun p => p.1 == h)).map (fun p => p.2)

/-- Go map membership test. -/
def mapHas (m : List (Nat × PoolItem)) (h : Nat) : Bool :=
  (m.find? (fun p => p.1 == h)).isSome

/-- Go map delete. -/
def mapErase (m : List (Nat × PoolItem)) (h : Nat) : List (Nat × PoolItem) :=
  m.filter (fun p => p.1 != h)

/-- `core.Pool` (`part_030`): capacity, `hashToTxMap`, `pendingQueue`,
`processingObjects`.  The chain handle, logger and callback hooks are kept
outside the state: `objectValidation` is a parameter of `addObject`, and the
debt pool instantiates it with the always-`nil` validator. -/
structure Pool where
  capacity : Nat
  hashToTxMap : List (Nat × PoolItem)
  pendingQueue : PendingQueue
  processingObjects : List Nat
  deriving Repr, DecidableEq

/-- `Pool.Has(hash)`. -/
def Pool.Has (pool : Pool) (h : Nat) : Bool := mapHas pool.hashToTxMap h

/-- `Pool.doRemoveObject(objHash)`. -/
def Pool.doRemoveObject (pool : Pool) (objHash : Nat) : Pool :=
  match mapGet pool.hashToTxMap objHash with
  | none => pool
  | some tx =>
    { pool with
      pendingQueue := pool.pendingQueue.remove tx.obj.fromAcc tx.obj.nonce
      processingObjects := pool.processingObjects.filter (fun h => h != objHash)
      hashToTxMap := mapErase pool.hashToTxMap objHash }

/-- `Pool.doAddObject(obj)`: build the pooled item (`newPooledItem`, whose
timestamp is the ambient `now`) and insert it into the hash map and the
pending queue. -/
def Pool.doAddObject (pool : Pool) (obj : PoolObject) (now : Nat) : Pool :=
  { pool with
    hashToTxMap := (obj.hash, ⟨obj, now⟩) :: pool.hashToTxMap
    pendingQueue := pool.pendingQueue.add ⟨obj, now⟩ }

/-- The capacity branch of `Pool.addObject`: when `len(hashToTxMap) ≥
capacity`, discard the lowest-priced sender collection below the incoming
price — deleting each of its items from the hash map — or fail with
`errObjectPoolFull`; then insert. -/
def Pool.addObjectCapacity (pool : Pool) (obj : PoolObject) (now : Nat) : Pool × Option PoolErr :=
  if pool.capacity ≤ pool.hashToTxMap.length then
    match (pool.pendingQueue.discard obj.price).2 with
    | none => (pool, some .objectPoolFull)
    | some p =>
      if p.2.len = 0 then (pool, some .objectPoolFull)
      else
        (Pool.doAddObject
          { pool with
            hashToTxMap := p.2.txs.foldl (fun m it => mapErase m it.obj.hash) pool.hashToTxMap
            pendingQueue := (pool.pendingQueue.discard obj.price).1 } obj now, none)
  else (Pool.doAddObject pool obj now, none)

/-- `Pool.addObject(obj)` (`part_030`): reject a duplicate hash; validate;
replace a same-`(sender, nonce)` item only on strictly higher price (else
`errObjectNonceUsed`); then the capacity branch. -/
def Pool.addObject (validation : PoolObject → Option PoolErr) (now : Nat)
    (pool : Pool) (obj : PoolObject) : Pool × Option PoolErr :=
  if pool.Has obj.hash then (pool, some .objectHashExists)
  else
    match validation obj with
    | some _ => (pool, some .validationFailed)
    | none =>
      match pool.pendingQueue.get obj.fromAcc obj.nonce with
      | some existTx =>
        if existTx.obj.price < obj.price then
          (pool.doRemoveObject existTx.obj.hash).addObjectCapacity obj now
        else (pool, some .objectNonceUsed)
      | none => pool.addObjectCapacity obj now

/-- The drain loop of `Pool.getProcessableObjects`: while the queue is
nonempty, peek the globally best head; stop when it would exceed the byte
budget, else pop it.  `fuel` only makes the recursion structural; the
caller passes the queue count, which bounds the possible pops. -/
def processLoop (size : Nat) : Nat → PendingQueue → List PoolObject → Nat →
    PendingQueue × List PoolObject × Nat
  | 0, q, acc, total => (q, acc, total)
  | fuel + 1, q, acc, total =>
    if q.isEmptyQ then (q, acc, total)
    else
      match q.peekItem with
      | none => (q, acc, total)
      | some tx =>
        if size < total + tx.obj.size then (q, acc, total)
        else
          match (q.pop).2 with
          | some it =>
            processLoop size fuel (q.pop).1 (acc ++ [it.obj]) (total + tx.obj.size)
          | none => ((q.pop).1, acc, total)

/-- `Pool.getProcessableObjects(size)`: clear `processingObjects`, drain
processable heads within the byte budget, record them as processing. -/
def Pool.getProcessableObjects (pool : Pool) (size : Nat) :
    Pool × List PoolObject × Nat :=
  let r := processLoop size pool.pendingQueue.count pool.pendingQueue [] 0
  ({ pool with pendingQueue := r.1, processingObjects := r.2.1.map (fun o => o.hash) },
   r.2.1, r.2.2)

/-- Well-formedness of a sender's collection under its queue key: nonces are
map keys (nodup) and every item belongs to the keyed sender. -/
def TxCollection.WFc (c : TxCollection) (acc : Nat) : Prop :=
  (c.txs.map (fun it => it.obj.nonce)).Nodup ∧ ∀ it ∈ c.txs, it.obj.fromAcc = acc

/-- Well-formedness of the pending queue: senders are map keys (nodup) and
every collection is well-formed under its key. -/
def PendingQueue.WF (q : PendingQueue) : Prop :=
  (q.colls.map Prod.fst).Nodup ∧ ∀ p ∈ q.colls, p.2.WFc p.1

/-- Well-formedness of the pool: the queue is well-formed, the hash map's
keys are nodup, and every pending item is stored in the hash map under its
own hash. -/
def Pool.WFp (pool : Pool) : Prop :=
  pool.pendingQueue.WF ∧
  (pool.hashToTxMap.map Prod.fst).Nodup ∧
  ∀ it ∈ queueItems pool.pendingQueue, mapGet pool.hashToTxMap it.obj.hash = some it

/-! ## Debts (`core/types/debt.go`) and the two-stage debt pool
(`core/debt_pool.go`)

Addresses are embedded as (shard, rest-of-bytes): `Address.Shard()`
(`part_015`) reads the leading `ShardByte = 1` byte as a varint, and the
claims only inspect the shard.  `crypto.MustHash` is out of scope and is
passed as an abstract function `hashFn : DebtData → Nat`.  The
`UndefinedShardNumber` sentinel is `0` (`part_015`'s `ValidShard` rejects
shard `0`). -/

/-- An account address, split into its shard number and the remaining
bytes. -/
structure Address where
  shard : Nat
  rest : Nat
  deriving Repr, DecidableEq

/-- Injective `Nat` encoding of an address, used for the pool-object view. -/
def addrEncode (a : Address) : Nat := Nat.pair a.shard a.rest

/-- `types.DebtData`. -/
structure DebtData where
  txHash : Nat
  fromAddr : Address
  nonce : Nat
  account : Address
  amount : Int
  price : Int
  code : List Nat
  deriving Repr, DecidableEq

/-- `types.Debt`: the cached hash plus the data. -/
structure Debt where
  hash : Nat
  data : DebtData
  deriving Repr, DecidableEq

/-- `types.DebtSize = 118`. -/
def DebtSize : Nat := 118

/-- The `poolObject` view of a debt (`FromAccount`, `ToAccount`, `Nonce`,
`Price`, `GetHash`, `Size = DebtSize + len(code)`). -/
def Debt.toPoolObject (d : Debt) : PoolObject :=
  { fromAcc := addrEncode d.data.fromAddr
    toAcc := addrEncode d.data.account
    nonce := d.data.nonce
    price := d.data.price
    hash := d.hash
    size := DebtSize + d.data.code.length }

/-- What `verifier.ValidateDebt(d)` reports: `(packed, confirmed, err)`. -/
structure VerifierReport where
  packed : Bool
  confirmed : Bool
  err : Option Nat
  deriving Repr, DecidableEq

/-- The debt-side errors the claims distinguish.  `verifierFailed` stands
for `errors.NewStackedError(err, ErrMsgVerifierFailed)`: the `common/errors`
stacked-error constructor is not under `src/`; modelled from the spec and
from every use site in `src/` as a wrapper that is itself a non-nil error,
carrying the (possibly absent) inner error. -/
inductive DebtErr where
  | wrongShardNumber
  | invalidAccount
  | invalidHash
  | invalidFee
  | verifierFailed (inner : Option Nat)
  | mapFull
  | poolAdd (e : PoolErr)
  deriving Repr, DecidableEq

/-- `Debt.Validate(verifier, isPool, targetShard)` (`core/types/debt.go`):
shard checks, hash check, fee check, then the verifier consultation.
`report = none` stands for a nil verifier (skipped).  Returns
`(recoverable, retErr)`; `recoverable` is set exactly when the verifier
reports `packed`. -/
def debtValidate (hashFn : DebtData → Nat) (report : Option VerifierReport)
    (d : Debt) (isPool : Bool) (targetShard : Nat) : Bool × Option DebtErr :=
  if d.data.fromAddr.shard = targetShard then (false, some .wrongShardNumber)
  else if targetShard ≠ 0 ∧ d.data.account.shard ≠ targetShard then
    (false, some .invalidAccount)
  else if d.hash ≠ hashFn d.data then (false, some .invalidHash)
  else if d.data.price ≤ 0 then (false, some .invalidFee)
  else
    match report with
    | none => (false, none)
    | some r =>
      if r.confirmed then (r.packed, none)
      else if (isPool ∧ r.packed = false) ∨ isPool = false then
        (r.packed, some (.verifierFailed r.err))
      else (r.packed, none)

/-- Modelled from the spec: `core.ConcurrentDebtMap` (not under `src/`) —
stage A's "`to_confirm` map (by hash, bounded)".  `add` fails when the map
is at capacity; `removeByValue` deletes the entry only when it holds that
very debt. -/
structure ConcurrentDebtMap where
  capacity : Nat
  items : List (Nat × Debt)
  deriving Repr, DecidableEq

/-- `ConcurrentDebtMap.has(hash)`. -/
def ConcurrentDebtMap.has (m : ConcurrentDebtMap) (h : Nat) : Bool :=
  (m.items.find? (fun p => p.1 == h)).isSome

/-- `ConcurrentDebtMap.count()`. -/
def ConcurrentDebtMap.count (m : ConcurrentDebtMap) : Nat := m.items.length

/-- `ConcurrentDebtMap.add(debt)`: reject when at capacity, else store under
the debt's hash. -/
def ConcurrentDebtMap.add (m : ConcurrentDebtMap) (d : Debt) :
    ConcurrentDebtMap × Option DebtErr :=
  if m.capacity ≤ m.items.length then (m, some .mapFull)
  else ({ m with items := (d.hash, d) :: m.items }, none)

/-- `ConcurrentDebtMap.removeByValue(debt)`. -/
def ConcurrentDebtMap.removeByValue (m : ConcurrentDebtMap) (d : Debt) :
    ConcurrentDebtMap :=
  match m.items.find? (fun p => p.1 == d.hash) with
  | some p =>
    if p.2 = d then { m with items := m.items.filter (fun e => e.1 != d.hash) } else m
  | none => m

/-- The state a `DebtPool` carries for the claims: the stage-A map and the
stage-B pending pool. -/
structure DebtPoolState where
  toConfirmed : ConcurrentDebtMap
  pool : Pool
  deriving Repr, DecidableEq

/-- `Pool.GetObject(hash)` (`part_030`). -/
def Pool.GetObject (pool : Pool) (h : Nat) : Option PoolObject :=
  (mapGet pool.hashToTxMap h).map (fun it => it.obj)

/-- `DebtPool.DoMulCheckingDebtHandler(d)` (`core/debt_pool.go`): validate
with `isPool = false` against `common.LocalShardNumber`; on a recoverable
error keep the debt in `to_confirm`, on an unrecoverable error drop it; with
no error add it to the pending pool via `addObject` (`objectValidation` is
the debt pool's always-nil validator) and drop it from `to_confirm` only if
the add succeeded. -/
def DoMulCheckingDebtHandler (hashFn : DebtData → Nat) (report : Option VerifierReport)
    (localShard : Nat) (now : Nat) (st : DebtPoolState) (d : Debt) :
    DebtPoolState × Option DebtErr :=
  match (debtValidate hashFn report d false localShard).2 with
  | some e =>
    if (debtValidate hashFn report d false localShard).1 then (st, some e)
    else ({ st with toConfirmed := st.toConfirmed.removeByValue d }, some e)
  | none =>
    match (Pool.addObject (fun _ => none) now st.pool d.toPoolObject).2 with
    | none =>
      (⟨st.toConfirmed.removeByValue d,
        (Pool.addObject (fun _ => none) now st.pool d.toPoolObject).1⟩, none)
    | some e =>
      (⟨st.toConfirmed,
        (Pool.addObject (fun _ => none) now st.pool d.toPoolObject).1⟩, some (.poolAdd e))

/-- `DebtPool.AddDebt(debt)` (`core/debt_pool.go`): nil debts, debts already
in `to_confirm` and debts already in the pending pool are silently accepted
(`nil` error, nothing changes); otherwise the debt is inserted into the
bounded `to_confirm` map and that insertion's error is returned. -/
def AddDebt (st : DebtPoolState) (debt : Option Debt) : DebtPoolState × Option DebtErr :=
  match debt with
  | none => (st, none)
  | some d =>
    if st.toConfirmed.has d.hash then (st, none)
    else if (st.pool.GetObject d.hash).isSome then (st, none)
    else ({ st with toConfirmed := (st.toConfirmed.add d).1 }, (st.toConfirmed.add d).2)

end Scdo

namespace Scdo

/-! ## Theorems -/

/-- **C5** (difficulty retarget).  For every parent header with height ≥ 1 and
every `uint64` timestamp not before the parent's, `GetDifficult` equals the
specification formula
`parent_diff + (parent_diff / D) * max(1 - (ts - parent_ts)/20, -99)`
with `D = 2048` below the fork height and `1024` at or above it; for a
genesis parent the parent difficulty is returned unchanged; and the function
is pure (equal inputs give equal outputs). -/
theorem getDifficult_eq_spec (time : Nat) (parent : BlockHeaderDiff)
    (h1 : time < 2 ^ 64) (h2 : parent.createTimestamp < 2 ^ 64)
    (h3 : parent.createTimestamp ≤ time) :
    GetDifficult time parent = specDifficulty time parent ∧
    (parent.height = 0 → GetDifficult time parent = parent.difficulty) ∧
    (∀ t₂ : Nat, ∀ p₂ : BlockHeaderDiff, t₂ = time → p₂ = parent →
      GetDifficult t₂ p₂ = GetDifficult time parent) := by
  refine ⟨?_, ?_, ?_⟩
  · unfold GetDifficult specDifficulty
    by_cases h0 : parent.height = 0
    · simp [h0]
    · simp only [h0, if_false]
      have hsub : sub64 time parent.createTimestamp = time - parent.createTimestamp := by
        unfold sub64; omega
      have hlt : (time - parent.createTimestamp) / 20 < 2 ^ 63 := by omega
      have htoi : toInt64 (sub64 time parent.createTimestamp / 20) =
          (((time - parent.createTimestamp) / 20 : Nat) : Int) := by
        rw [hsub]; unfold toInt64; rw [if_pos hlt]
      rw [htoi]
      set I : Int := (((time - parent.createTimestamp) / 20 : Nat) : Int) with hI
      have hmax : (if (1 - I : Int) < -99 then (-99 : Int) else 1 - I) = max (1 - I) (-99) := by
        rcases lt_or_ge (1 - I) (-99) with h | h
        · rw [if_pos h, max_eq_right h.le]
        · rw [if_neg (not_lt.mpr h), max_eq_left h]
      by_cases hf : parent.height < SecondForkHeight
      · simp only [hf, if_true, hmax]; ring
      · simp only [hf, if_false, hmax]; ring
  · intro h0; unfold GetDifficult; simp [h0]
  · intro t₂ p₂ ht hp; rw [ht, hp]

/-- **C5 witness**: the retarget theorem applied at a concrete parent
(height 1, timestamp 100, difficulty 10000) and timestamp 130. -/
theorem getDifficult_eq_spec_holds :
    GetDifficult 130 ⟨1, 100, 10000⟩ = specDifficulty 130 ⟨1, 100, 10000⟩ ∧
    ((1 : Nat) = 0 → GetDifficult 130 ⟨1, 100, 10000⟩ = 10000) ∧
    (∀ t₂ : Nat, ∀ p₂ : BlockHeaderDiff, t₂ = 130 → p₂ = ⟨1, 100, 10000⟩ →
      GetDifficult t₂ p₂ = GetDifficult 130 ⟨1, 100, 10000⟩) := by
  have h := getDifficult_eq_spec 130 ⟨1, 100, 10000⟩ (by norm_num) (by norm_num) (by norm_num)
  exact ⟨h.1, fun hc => h.2.1 hc, h.2.2⟩

/-- **C6 counterexample**.  At height `9 * 3150000` (era 9) the code pays `0`,
while the claim's schedule ("tail until `era > len + 1`", i.e. tail through
era 9) pays `6 / shard_count = 3/2 ≠ 0`. -/
theorem getReward_era9_diverges_from_spec :
    GetReward (9 * 3150000) = 0 ∧ specReward (9 * 3150000) = 3 / 2 ∧
    GetReward (9 * 3150000) ≠ specReward (9 * 3150000) := by
  refine ⟨?_, ?_, ?_⟩ <;>
    norm_num [GetReward, specReward, rewardTableCoin, tailRewardCoin, ShardCount,
      blockNumberPerEra]

/-- **C6** (issuance schedule, amended).  For every block height, the reward
is `table[era] / shard_count` for `era < 8`, the tail `6 / shard_count`
exactly at `era = 8`, and `0` for every era **greater than the table length**
(not merely greater than length + 1). -/
theorem getReward_eq_amended_schedule (blockHeight : Nat) :
    GetReward blockHeight = specRewardAmended blockHeight := by
  unfold GetReward specRewardAmended
  have hlen : rewardTableCoin.length = 8 := by decide
  set era := blockHeight / blockNumberPerEra with hera
  by_cases h8 : era < 8
  · rw [if_pos (by rw [hlen]; exact h8), if_pos h8]
    interval_cases era <;> norm_num [rewardTableCoin, ShardCount]
  · rw [if_neg (by rw [hlen]; exact h8), if_neg h8]
    by_cases heq : era = 8
    · rw [if_pos (by rw [hlen]; exact heq), if_pos heq]
      norm_num [tailRewardCoin, ShardCount]
    · rw [if_neg (by rw [hlen]; exact heq), if_neg heq]

section PoolLemmas

/-- A successful map lookup returns an entry of the list with the looked-up
key. -/
theorem mapGet_mem {m : List (Nat × PoolItem)} {h : Nat} {v : PoolItem}
    (hget : mapGet m h = some v) : (h, v) ∈ m := by
  unfold mapGet at hget
  induction m with
  | nil => simp at hget
  | cons e m ih =>
    rw [List.find?_cons] at hget
    by_cases he : e.1 = h
    · have : (e.1 == h) = true := by simp [he]
      rw [this] at hget
      have hv : e.2 = v := by simpa using hget
      have he2 : (h, v) = e := by rw [← he, ← hv]
      rw [he2]
      exact List.mem_cons_self e m
    · have : (e.1 == h) = false := by simp [he]
      rw [this] at hget
      exact List.mem_cons_of_mem e (ih hget)

/-- `mapHas` is `mapGet`-definedness. -/
theorem mapHas_iff_get {m : List (Nat × PoolItem)} {h : Nat} :
    mapHas m h = true ↔ ∃ v, mapGet m h = some v := by
  unfold mapHas mapGet
  cases m.find? (fun p => p.1 == h) with
  | none => simp
  | some p => simp

/-- Looking up a different key ignores a map-delete. -/
theorem mapGet_erase_ne {m : List (Nat × PoolItem)} {h k : Nat} (hne : k ≠ h) :
    mapGet (mapErase m h) k = mapGet m k := by
  unfold mapGet mapErase
  induction m with
  | nil => simp
  | cons e m ih =>
    by_cases he : e.1 = h
    · have hf : (e.1 != h) = false := by simp [he]
      have hk : (e.1 == k) = false := by
        rw [he]
        exact beq_eq_false_iff_ne.mpr (fun hc => hne hc.symm)
      simp only [List.filter_cons, hf, Bool.false_eq_true, if_false, List.find?_cons, hk]
      exact ih
    · have hf : (e.1 != h) = true := by simp [he]
      simp only [List.filter_cons, hf, if_true, List.find?_cons]
      cases hek : (e.1 == k) with
      | true => rfl
      | false => exact ih

/-- After a map-delete the key is gone. -/
theorem mapHas_erase_self {m : List (Nat × PoolItem)} {h : Nat} :
    mapHas (mapErase m h) h = false := by
  unfold mapHas mapErase
  have : List.find? (fun p => p.1 == h) (List.filter (fun p => p.1 != h) m) = none := by
    rw [List.find?_eq_none]
    intro p hp
    have := (List.mem_filter.mp hp).2
    simp only [bne_iff_ne, ne_eq, decide_not] at this ⊢
    simpa using this
  rw [this]
  rfl

/-- Map-delete never grows the map. -/
theorem length_mapErase_le (m : List (Nat × PoolItem)) (h : Nat) :
    (mapErase m h).length ≤ m.length :=
  List.length_filter_le _ m

/-- Deleting a present key from a nodup-keyed map shrinks it by exactly one. -/
theorem length_mapErase_of_has {m : List (Nat × PoolItem)} {h : Nat}
    (hnd : (m.map Prod.fst).Nodup) (hhas : mapHas m h = true) :
    (mapErase m h).length = m.length - 1 := by
  unfold mapHas at hhas
  unfold mapErase
  induction m with
  | nil => simp at hhas
  | cons e m ih =>
    rw [List.map_cons, List.nodup_cons] at hnd
    by_cases he : e.1 = h
    · have hf : (e.1 != h) = false := by simp [he]
      simp only [List.filter_cons, hf, Bool.false_eq_true, if_false]
      have hall : List.filter (fun p => p.1 != h) m = m := by
        apply List.filter_eq_self.mpr
        intro p hp
        have hpne : p.1 ≠ h := by
          intro hph
          exact hnd.1 (by rw [he, ← hph]; exact List.mem_map_of_mem Prod.fst hp)
        simpa using hpne
      rw [hall]
      simp
    · have hf : (e.1 != h) = true := by simp [he]
      simp only [List.filter_cons, hf, if_true]
      rw [List.find?_cons] at hhas
      have hek : (e.1 == h) = false := by simp [he]
      rw [hek] at hhas
      have hlen := ih hnd.2 hhas
      have hpos : 1 ≤ m.length := by
        cases hm : m.find? (fun p => p.1 == h) with
        | none => rw [hm] at hhas; simp at hhas
        | some p =>
          have := List.mem_of_find?_eq_some hm
          exact List.length_pos.mpr (by rintro rfl; simp at this)
      simp only [List.length_cons, hlen]
      omega

/-- Deleting an absent key is the identity. -/
theorem mapErase_of_not_has {m : List (Nat × PoolItem)} {h : Nat}
    (hhas : mapHas m h = false) : mapErase m h = m := by
  unfold mapHas at hhas
  apply List.filter_eq_self.mpr
  intro p hp
  have : ¬ (p.1 == h) = true := by
    intro hc
    have : m.find? (fun p => p.1 == h) ≠ none := by
      intro hn
      rw [List.find?_eq_none] at hn
      exact (hn p hp) hc
    cases hm : m.find? (fun p => p.1 == h) with
    | none => exact this hm
    | some q => rw [hm] at hhas; simp at hhas
  simpa using this

/-- Erasing a batch of hashes never grows the map. -/
theorem length_foldErase_le (l : List PoolItem) (m : List (Nat × PoolItem)) :
    (l.foldl (fun m it => mapErase m it.obj.hash) m).length ≤ m.length := by
  induction l generalizing m with
  | nil => simp
  | cons x xs ih =>
    simp only [List.foldl_cons]
    exact le_trans (ih _) (length_mapErase_le m x.obj.hash)

/-- Erasing a batch that contains at least one present hash strictly shrinks
the map. -/
theorem length_foldErase_lt {l : List PoolItem} {m : List (Nat × PoolItem)}
    (hex : ∃ it ∈ l, mapHas m it.obj.hash = true) :
    (l.foldl (fun m it => mapErase m it.obj.hash) m).length < m.length := by
  induction l generalizing m with
  | nil => obtain ⟨it, hmem, _⟩ := hex; simp at hmem
  | cons x xs ih =>
    simp only [List.foldl_cons]
    by_cases hx : mapHas m x.obj.hash = true
    · have h1 : (mapErase m x.obj.hash).length < m.length := by
        unfold mapHas at hx
        cases hf : m.find? (fun p => p.1 == x.obj.hash) with
        | none => rw [hf] at hx; simp at hx
        | some p =>
          have hp : p.1 = x.obj.hash := by have := List.find?_some hf; simpa using this
          have hmem := List.mem_of_find?_eq_some hf
          apply List.length_filter_lt_length_iff_exists.mpr
          exact ⟨p, hmem, by simp [hp]⟩
      exact lt_of_le_of_lt (length_foldErase_le xs _) h1
    · obtain ⟨it, hmem, hhas⟩ := hex
      rcases List.mem_cons.mp hmem with rfl | hxs
      · exact absurd hhas hx
      · have : mapHas (mapErase m x.obj.hash) it.obj.hash = true := by
          by_cases heq : it.obj.hash = x.obj.hash
          · rw [heq] at hhas; exact absurd hhas hx
          · rw [mapHas_iff_get] at hhas ⊢
            rw [mapGet_erase_ne heq]
            exact hhas
        exact lt_of_lt_of_le (ih ⟨it, hxs, this⟩)
          (length_mapErase_le m x.obj.hash)

/-- The lowest-nonce scan starting from a candidate returns a member (or the
candidate) whose nonce bounds the candidate and every element. -/
theorem minNonceGo (l : List PoolItem) :
    ∀ b : PoolItem, ∃ m, l.foldl minNonceStep (some b) = some m ∧
      (m ∈ l ∨ m = b) ∧ m.obj.nonce ≤ b.obj.nonce ∧
      ∀ x ∈ l, m.obj.nonce ≤ x.obj.nonce := by
  induction l with
  | nil => intro b; exact ⟨b, rfl, Or.inr rfl, le_refl _, by simp⟩
  | cons x xs ih =>
    intro b
    simp only [List.foldl_cons]
    by_cases hx : x.obj.nonce < b.obj.nonce
    · have hstep : minNonceStep (some b) x = some x := by unfold minNonceStep; simp [hx]
      rw [hstep]
      obtain ⟨m, hm, hmem, hle, hall⟩ := ih x
      refine ⟨m, hm, ?_, ?_, ?_⟩
      · rcases hmem with h | h
        · exact Or.inl (List.mem_cons_of_mem x h)
        · exact Or.inl (h ▸ List.mem_cons_self x xs)
      · exact le_trans hle (le_of_lt hx)
      · intro y hy
        rcases List.mem_cons.mp hy with rfl | hys
        · exact hle
        · exact hall y hys
    · have hstep : minNonceStep (some b) x = some b := by unfold minNonceStep; simp [hx]
      rw [hstep]
      obtain ⟨m, hm, hmem, hle, hall⟩ := ih b
      refine ⟨m, hm, ?_, hle, ?_⟩
      · rcases hmem with h | h
        · exact Or.inl (List.mem_cons_of_mem x h)
        · exact Or.inr h
      · intro y hy
        rcases List.mem_cons.mp hy with rfl | hys
        · exact le_trans hle (not_lt.mp hx)
        · exact hall y hys

/-- A successful lowest-nonce scan returns a member of minimal nonce. -/
theorem minNonceItem_spec {l : List PoolItem} {it : PoolItem}
    (hmin : minNonceItem l = some it) :
    it ∈ l ∧ ∀ x ∈ l, it.obj.nonce ≤ x.obj.nonce := by
  cases l with
  | nil => exact absurd hmin (by simp [minNonceItem])
  | cons x xs =>
    unfold minNonceItem at hmin
    rw [List.foldl_cons] at hmin
    have hstep : minNonceStep none x = some x := rfl
    rw [hstep] at hmin
    obtain ⟨m, hm, hmem, hle, hall⟩ := minNonceGo xs x
    rw [hm] at hmin
    obtain rfl : m = it := by simpa using hmin
    refine ⟨?_, ?_⟩
    · rcases hmem with h | h
      · exact List.mem_cons_of_mem x h
      · exact h ▸ List.mem_cons_self x xs
    · intro y hy
      rcases List.mem_cons.mp hy with rfl | hys
      · exact hle
      · exact hall y hys

/-- The lowest-nonce scan of a nonempty list succeeds. -/
theorem minNonceItem_isSome {l : List PoolItem} (hne : l ≠ []) :
    (minNonceItem l).isSome = true := by
  cases l with
  | nil => exact absurd rfl hne
  | cons x xs =>
    unfold minNonceItem
    rw [List.foldl_cons]
    have hstep : minNonceStep none x = some x := rfl
    rw [hstep]
    obtain ⟨m, hm, _, _, _⟩ := minNonceGo xs x
    rw [hm]
    rfl

/-- The best-collection scan starting from a candidate returns a member or
the candidate. -/
theorem bestGo_mem (l : List (Nat × TxCollection)) :
    ∀ b, ∃ m, l.foldl bestStep (some b) = some m ∧ (m ∈ l ∨ m = b) := by
  induction l with
  | nil => intro b; exact ⟨b, rfl, Or.inr rfl⟩
  | cons x xs ih =>
    intro b
    simp only [List.foldl_cons]
    by_cases hx : x.2.cmp b.2 > 0
    · rw [show bestStep (some b) x = some x from if_pos hx]
      obtain ⟨m, hm, hmem⟩ := ih x
      refine ⟨m, hm, ?_⟩
      rcases hmem with h | h
      · exact Or.inl (List.mem_cons_of_mem x h)
      · exact Or.inl (h ▸ List.mem_cons_self x xs)
    · rw [show bestStep (some b) x = some b from if_neg hx]
      obtain ⟨m, hm, hmem⟩ := ih b
      refine ⟨m, hm, ?_⟩
      rcases hmem with h | h
      · exact Or.inl (List.mem_cons_of_mem x h)
      · exact Or.inr h

/-- A successful best-collection scan returns a member of the queue. -/
theorem bestColl_mem {q : PendingQueue} {p : Nat × TxCollection}
    (hbest : q.bestColl = some p) : p ∈ q.colls := by
  unfold PendingQueue.bestColl at hbest
  cases hq : q.colls with
  | nil => rw [hq] at hbest; exact absurd hbest (by simp)
  | cons x xs =>
    rw [hq, List.foldl_cons] at hbest
    have hstep : bestStep none x = some x := rfl
    rw [hstep] at hbest
    obtain ⟨m, hm, hmem⟩ := bestGo_mem xs x
    rw [hm] at hbest
    obtain rfl : m = p := by simpa using hbest
    rcases hmem with h | h
    · exact List.mem_cons_of_mem x h
    · exact h ▸ List.mem_cons_self x xs

/-- Once the discard scan holds a candidate it never loses it. -/
theorem discardGo_some_stays (price : Int) (l : List (Nat × TxCollection)) :
    ∀ b, ∃ m, l.foldl (discardStep price) (some b) = some m := by
  induction l with
  | nil => intro b; exact ⟨b, rfl⟩
  | cons x xs ih =>
    intro b
    simp only [List.foldl_cons]
    by_cases hb : headBelowB price x = true
    · by_cases hcmp : x.2.cmp b.2 < 0
      · rw [show discardStep price (some b) x = some x by
          unfold discardStep; rw [if_pos hb]; exact if_pos hcmp]
        exact ih x
      · rw [show discardStep price (some b) x = some b by
          unfold discardStep; rw [if_pos hb]; exact if_neg hcmp]
        exact ih b
    · rw [show discardStep price (some b) x = some b by
        unfold discardStep; rw [if_neg hb]]
      exact ih b

/-- The discard scan yields nothing iff no scanned collection's head is
strictly below the price. -/
theorem discardGo_none_iff (price : Int) (l : List (Nat × TxCollection)) :
    l.foldl (discardStep price) none = none ↔ ∀ p ∈ l, headBelowB price p = false := by
  induction l with
  | nil => simp
  | cons x xs ih =>
    simp only [List.foldl_cons]
    by_cases hb : headBelowB price x = true
    · have hstep : discardStep price none x = some x := by
        unfold discardStep; rw [if_pos hb]
      rw [hstep]
      obtain ⟨m, hm⟩ := discardGo_some_stays price xs x
      rw [hm]
      constructor
      · intro hc; exact Option.noConfusion hc
      · intro hall
        have := hall x (List.mem_cons_self x xs)
        rw [hb] at this
        exact Bool.noConfusion this
    · have hstep : discardStep price none x = none := by
        unfold discardStep; rw [if_neg hb]
      rw [hstep, ih]
      constructor
      · intro hall p hp
        rcases List.mem_cons.mp hp with rfl | hxs
        · exact Bool.eq_false_iff.mpr hb
        · exact hall p hxs
      · intro hall p hp
        exact hall p (List.mem_cons_of_mem x hp)

/-- A collection chosen by the discard scan is a scanned collection (or the
initial candidate) and its head is strictly below the price. -/
theorem discardGo_some (price : Int) (l : List (Nat × TxCollection)) :
    ∀ acc r, (∀ b, acc = some b → headBelowB price b = true) →
      l.foldl (discardStep price) acc = some r →
      (r ∈ l ∨ acc = some r) ∧ headBelowB price r = true := by
  induction l with
  | nil =>
    intro acc r hacc hres
    exact ⟨Or.inr hres, hacc r hres⟩
  | cons x xs ih =>
    intro acc r hacc hres
    simp only [List.foldl_cons] at hres
    cases hs : discardStep price acc x with
    | none =>
      rw [hs] at hres
      obtain ⟨hmem, hbelow⟩ := ih none r (fun b hb => Option.noConfusion hb) hres
      rcases hmem with h | h
      · exact ⟨Or.inl (List.mem_cons_of_mem x h), hbelow⟩
      · exact Option.noConfusion h
    | some b =>
      rw [hs] at hres
      have hb : headBelowB price b = true ∧ (b = x ∨ acc = some b) := by
        unfold discardStep at hs
        by_cases hbx : headBelowB price x = true
        · rw [if_pos hbx] at hs
          cases hacc2 : acc with
          | none =>
            rw [hacc2] at hs
            obtain rfl : x = b := by simpa using hs
            exact ⟨hbx, Or.inl rfl⟩
          | some b0 =>
            rw [hacc2] at hs
            have hs2 : (if x.2.cmp b0.2 < 0 then some x else some b0) = some b := hs
            by_cases hcmp : x.2.cmp b0.2 < 0
            · rw [if_pos hcmp] at hs2
              obtain rfl : x = b := by simpa using hs2
              exact ⟨hbx, Or.inl rfl⟩
            · rw [if_neg hcmp] at hs2
              obtain rfl : b0 = b := by simpa using hs2
              exact ⟨hacc b0 hacc2, Or.inr rfl⟩
        · rw [if_neg hbx] at hs
          exact ⟨hacc b hs, Or.inr hs⟩
      have hsome : ∀ c, some b = some c → headBelowB price c = true := by
        intro c hc
        obtain rfl : b = c := by simpa using hc
        exact hb.1
      obtain ⟨hmem, hbelow⟩ := ih (some b) r hsome hres
      rcases hmem with h | h
      · exact ⟨Or.inl (List.mem_cons_of_mem x h), hbelow⟩
      · obtain rfl : b = r := by simpa using h
        rcases hb.2 with h2 | h2
        · exact ⟨Or.inl (h2 ▸ List.mem_cons_self x xs), hbelow⟩
        · exact ⟨Or.inr h2, hbelow⟩

/-- Membership in the queue's item set. -/
theorem mem_queueItems {q : PendingQueue} {r : PoolItem} :
    r ∈ queueItems q ↔ ∃ p, p ∈ q.colls ∧ r ∈ p.2.txs := by
  simp [queueItems, List.mem_flatMap]

/-- A successful collection lookup returns a member carrying the nonce. -/
theorem collGet_some {c : TxCollection} {n : Nat} {it : PoolItem}
    (hget : c.get n = some it) : it ∈ c.txs ∧ it.obj.nonce = n := by
  unfold TxCollection.get at hget
  refine ⟨List.mem_of_find?_eq_some hget, ?_⟩
  have := List.find?_some hget
  simpa using this

/-- A failed collection lookup means no member carries the nonce. -/
theorem collGet_none {c : TxCollection} {n : Nat} (hget : c.get n = none) :
    ∀ it ∈ c.txs, it.obj.nonce ≠ n := by
  unfold TxCollection.get at hget
  rw [List.find?_eq_none] at hget
  intro it hit
  have := hget it hit
  simpa using this

/-- A successful queue lookup: the sender's collection is in the queue and
holds the item under the nonce. -/
theorem queueGet_some {q : PendingQueue} {s n : Nat} {it : PoolItem}
    (hget : q.get s n = some it) :
    ∃ c, (s, c) ∈ q.colls ∧ it ∈ c.txs ∧ it.obj.nonce = n := by
  unfold PendingQueue.get at hget
  cases hfind : q.colls.find? (fun p => p.1 == s) with
  | none => rw [hfind] at hget; exact Option.noConfusion hget
  | some p =>
    rw [hfind] at hget
    have hps : p.1 = s := by have := List.find?_some hfind; simpa using this
    have hmem := List.mem_of_find?_eq_some hfind
    obtain ⟨hin, hn⟩ := collGet_some hget
    exact ⟨p.2, by rw [← hps]; exact hmem, hin, hn⟩

/-- Membership after deleting a nonce. -/
theorem mem_removeNonce {c : TxCollection} {n : Nat} {r : PoolItem} :
    r ∈ (c.removeNonce n).txs ↔ r ∈ c.txs ∧ r.obj.nonce ≠ n := by
  unfold TxCollection.removeNonce
  simp [List.mem_filter]

/-- Deleting a nonce preserves collection well-formedness. -/
theorem WFc_removeNonce {c : TxCollection} {a n : Nat} (hwf : c.WFc a) :
    (c.removeNonce n).WFc a := by
  obtain ⟨hnd, hfrom⟩ := hwf
  refine ⟨?_, ?_⟩
  · exact hnd.sublist (List.Sublist.map _ (List.filter_sublist c.txs))
  · intro it hit
    exact hfrom it (mem_removeNonce.mp hit).1

/-- `txCollection.add` preserves collection well-formedness when the added
item belongs to the keyed sender. -/
theorem WFc_add {c : TxCollection} {a : Nat} {tx : PoolItem} (hwf : c.WFc a)
    (hfrom : tx.obj.fromAcc = a) : ((c.add tx).1).WFc a := by
  obtain ⟨hnd, hall⟩ := hwf
  unfold TxCollection.add
  cases hget : c.get tx.obj.nonce with
  | some e =>
    refine ⟨?_, ?_⟩
    · show ((c.txs.map (fun it =>
        if it.obj.nonce == tx.obj.nonce then tx else it)).map (fun it => it.obj.nonce)).Nodup
      rw [List.map_map]
      have hmap : ∀ it ∈ c.txs,
          ((fun it => it.obj.nonce) ∘ (fun it =>
            if it.obj.nonce == tx.obj.nonce then tx else it)) it = it.obj.nonce := by
        intro it _
        by_cases hn : it.obj.nonce == tx.obj.nonce
        · simp only [Function.comp_apply, if_pos hn]
          exact (by simpa using hn : it.obj.nonce = tx.obj.nonce).symm
        · simp only [Function.comp_apply, if_neg hn]
      rw [List.map_congr_left hmap]
      exact hnd
    · intro it hit
      rw [List.mem_map] at hit
      obtain ⟨x, hx, hfx⟩ := hit
      by_cases hn : x.obj.nonce == tx.obj.nonce
      · rw [if_pos hn] at hfx; rw [← hfx]; exact hfrom
      · rw [if_neg hn] at hfx; rw [← hfx]; exact hall x hx
  | none =>
    refine ⟨?_, ?_⟩
    · rw [List.map_append, List.nodup_append]
      refine ⟨hnd, List.nodup_singleton _, ?_⟩
      intro v hv
      rw [List.mem_map] at hv
      obtain ⟨x, hx, hfx⟩ := hv
      simp only [List.map_cons, List.map_nil, List.mem_singleton]
      intro hc
      exact collGet_none hget x hx (by rw [hfx, hc])
    · intro it hit
      rcases List.mem_append.mp hit with h | h
      · exact hall it h
      · rw [List.mem_singleton.mp h]; exact hfrom

/-- Dropping a sender preserves queue well-formedness. -/
theorem WF_removeKey {q : PendingQueue} {a : Nat} (hwf : q.WF) :
    (q.removeKey a).WF := by
  obtain ⟨hnd, hall⟩ := hwf
  refine ⟨?_, ?_⟩
  · exact hnd.sublist (List.Sublist.map _ (List.filter_sublist q.colls))
  · intro p hp
    exact hall p (List.mem_filter.mp hp).1

/-- Replacing a sender's collection by a well-formed one preserves queue
well-formedness. -/
theorem WF_updateKey {q : PendingQueue} {a : Nat} {c : TxCollection} (hwf : q.WF)
    (hc : c.WFc a) : (q.updateKey a c).WF := by
  obtain ⟨hnd, hall⟩ := hwf
  unfold PendingQueue.updateKey
  refine ⟨?_, ?_⟩
  · show ((q.colls.map (fun p => if p.1 == a then (p.1, c) else p)).map Prod.fst).Nodup
    rw [List.map_map]
    have hmap : ∀ p ∈ q.colls,
        (Prod.fst ∘ (fun p => if p.1 == a then (p.1, c) else p)) p = Prod.fst p := by
      intro p _
      by_cases hp : p.1 == a
      · simp only [Function.comp_apply, if_pos hp]
      · simp only [Function.comp_apply, if_neg hp]
    rw [List.map_congr_left hmap]
    exact hnd
  · intro p hp
    rw [List.mem_map] at hp
    obtain ⟨x, hx, hfx⟩ := hp
    by_cases hxa : x.1 == a
    · rw [if_pos hxa] at hfx
      rw [← hfx]
      have : x.1 = a := by simpa using hxa
      rw [this]
      exact hc
    · rw [if_neg hxa] at hfx
      rw [← hfx]
      exact hall x hx

/-- `pendingQueue.remove` preserves queue well-formedness. -/
theorem WF_remove {q : PendingQueue} {s n : Nat} (hwf : q.WF) :
    (q.remove s n).WF := by
  unfold PendingQueue.remove
  cases hfind : q.colls.find? (fun p => p.1 == s) with
  | none => exact hwf
  | some p =>
    have hps : p.1 = s := by have := List.find?_some hfind; simpa using this
    have hmem := List.mem_of_find?_eq_some hfind
    have hwfc := hwf.2 p hmem
    show ((let r := p.2.remove n;
      if r.2 then (if r.1.len = 0 then q.removeKey s else q.updateKey s r.1) else q)).WF
    unfold TxCollection.remove
    cases hget : p.2.get n with
    | none => exact hwf
    | some e =>
      show ((if (p.2.removeNonce n).len = 0 then q.removeKey s
        else q.updateKey s (p.2.removeNonce n))).WF
      by_cases hlen : (p.2.removeNonce n).len = 0
      · rw [if_pos hlen]; exact WF_removeKey hwf
      · rw [if_neg hlen]
        exact WF_updateKey hwf (by rw [← hps]; exact WFc_removeNonce hwfc)

/-- `pendingQueue.add` preserves queue well-formedness. -/
theorem WF_add {q : PendingQueue} {tx : PoolItem} (hwf : q.WF) : (q.add tx).WF := by
  obtain ⟨hnd, hall⟩ := hwf
  unfold PendingQueue.add
  cases hfind : q.colls.find? (fun p => p.1 == tx.obj.fromAcc) with
  | some p =>
    refine ⟨?_, ?_⟩
    · show ((q.colls.map (fun p =>
        if p.1 == tx.obj.fromAcc then (p.1, (p.2.add tx).1) else p)).map Prod.fst).Nodup
      rw [List.map_map]
      have hmap : ∀ e ∈ q.colls,
          (Prod.fst ∘ (fun p =>
            if p.1 == tx.obj.fromAcc then (p.1, (p.2.add tx).1) else p)) e = Prod.fst e := by
        intro e _
        by_cases he : e.1 == tx.obj.fromAcc
        · simp only [Function.comp_apply, if_pos he]
        · simp only [Function.comp_apply, if_neg he]
      rw [List.map_congr_left hmap]
      exact hnd
    · intro e he
      rw [List.mem_map] at he
      obtain ⟨x, hx, hfx⟩ := he
      by_cases hxa : x.1 == tx.obj.fromAcc
      · rw [if_pos hxa] at hfx
        rw [← hfx]
        exact WFc_add (hall x hx) (by simpa using hxa : x.1 = tx.obj.fromAcc).symm
      · rw [if_neg hxa] at hfx
        rw [← hfx]
        exact hall x hx
  | none =>
    refine ⟨?_, ?_⟩
    · rw [List.map_append, List.nodup_append]
      refine ⟨hnd, by simp, ?_⟩
      intro v hv
      simp only [List.map_cons, List.map_nil, List.mem_singleton]
      intro hc
      rw [List.find?_eq_none] at hfind
      rw [List.mem_map] at hv
      obtain ⟨x, hx, hfx⟩ := hv
      have := hfind x hx
      rw [hc] at hfx
      exact this (by simpa using hfx)
    · intro p hp
      rcases List.mem_append.mp hp with h | h
      · exact hall p h
      · rw [List.mem_singleton.mp h]
        refine ⟨by simp [TxCollection.add, TxCollection.get], ?_⟩
        intro it hit
        have : it = tx := by simpa [TxCollection.add, TxCollection.get] using hit
        rw [this]

/-- Items surviving a sender drop come from other senders' collections. -/
theorem mem_queueItems_removeKey {q : PendingQueue} {a : Nat} {r : PoolItem}
    (hmem : r ∈ queueItems (q.removeKey a)) :
    ∃ p, p ∈ q.colls ∧ p.1 ≠ a ∧ r ∈ p.2.txs := by
  obtain ⟨p, hp, hr⟩ := mem_queueItems.mp hmem
  unfold PendingQueue.removeKey at hp
  have := List.mem_filter.mp hp
  exact ⟨p, this.1, by simpa using this.2, hr⟩

/-- Items after a collection replacement are in the new collection or come
from other senders' collections. -/
theorem mem_queueItems_updateKey {q : PendingQueue} {a : Nat} {c : TxCollection}
    {r : PoolItem} (hmem : r ∈ queueItems (q.updateKey a c)) :
    r ∈ c.txs ∨ ∃ p, p ∈ q.colls ∧ p.1 ≠ a ∧ r ∈ p.2.txs := by
  obtain ⟨p, hp, hr⟩ := mem_queueItems.mp hmem
  unfold PendingQueue.updateKey at hp
  rw [List.mem_map] at hp
  obtain ⟨x, hx, hfx⟩ := hp
  by_cases hxa : x.1 == a
  · rw [if_pos hxa] at hfx
    left
    rw [← hfx] at hr
    exact hr
  · rw [if_neg hxa] at hfx
    right
    rw [← hfx] at hr
    exact ⟨x, hx, by simpa using hxa, hr⟩

/-- What `pendingQueue.pop` guarantees on a well-formed queue: the popped
item was pending; the queue stays well-formed; no new items appear; and
every remaining item of the popped item's sender has a strictly larger
nonce. -/
theorem pop_spec {q : PendingQueue} (hwf : q.WF) {q' : PendingQueue} {it : PoolItem}
    (hpop : q.pop = (q', some it)) :
    it ∈ queueItems q ∧ q'.WF ∧
    (∀ r ∈ queueItems q', r ∈ queueItems q) ∧
    (∀ r ∈ queueItems q', r.obj.fromAcc = it.obj.fromAcc → it.obj.nonce < r.obj.nonce) := by
  unfold PendingQueue.pop at hpop
  split at hpop
  · simp at hpop
  · rename_i p hbest
    split at hpop
    · simp at hpop
    · rename_i itm hpk
      have hp := bestColl_mem hbest
      have hwfc := hwf.2 p hp
      have hq' : (if (p.2.removeNonce itm.obj.nonce).len = 0 then q.removeKey p.1
          else q.updateKey p.1 (p.2.removeNonce itm.obj.nonce)) = q' :=
        congrArg Prod.fst hpop
      have hit : some itm = some it := congrArg Prod.snd hpop
      obtain rfl : it = itm := by simpa using hit.symm
      obtain ⟨hitm_mem, hitm_min⟩ := minNonceItem_spec hpk
      have hfrom : it.obj.fromAcc = p.1 := hwfc.2 it hitm_mem
      have hmemq : it ∈ queueItems q := mem_queueItems.mpr ⟨p, hp, hitm_mem⟩
      -- facts about remaining items of the same sender in the shrunk collection
      have hremain : ∀ r ∈ (p.2.removeNonce it.obj.nonce).txs,
          it.obj.nonce < r.obj.nonce := by
        intro r hr
        obtain ⟨hrin, hrne⟩ := mem_removeNonce.mp hr
        exact lt_of_le_of_ne (hitm_min r hrin) (fun hc => hrne hc.symm)
      by_cases hlen : (p.2.removeNonce it.obj.nonce).len = 0
      · rw [if_pos hlen] at hq'
        subst hq'
        refine ⟨hmemq, WF_removeKey hwf, ?_, ?_⟩
        · intro r hr
          obtain ⟨p', hp', _, hr'⟩ := mem_queueItems_removeKey hr
          exact mem_queueItems.mpr ⟨p', hp', hr'⟩
        · intro r hr hracc
          obtain ⟨p', hp', hpne, hr'⟩ := mem_queueItems_removeKey hr
          have : r.obj.fromAcc = p'.1 := (hwf.2 p' hp').2 r hr'
          rw [hracc, hfrom] at this
          exact absurd this.symm hpne
      · rw [if_neg hlen] at hq'
        subst hq'
        have hwfc' : (p.2.removeNonce it.obj.nonce).WFc p.1 := WFc_removeNonce hwfc
        refine ⟨hmemq, WF_updateKey hwf hwfc', ?_, ?_⟩
        · intro r hr
          rcases mem_queueItems_updateKey hr with h | ⟨p', hp', _, hr'⟩
          · exact mem_queueItems.mpr ⟨p, hp, (mem_removeNonce.mp h).1⟩
          · exact mem_queueItems.mpr ⟨p', hp', hr'⟩
        · intro r hr hracc
          rcases mem_queueItems_updateKey hr with h | ⟨p', hp', hpne, hr'⟩
          · exact hremain r h
          · have : r.obj.fromAcc = p'.1 := (hwf.2 p' hp').2 r hr'
            rw [hracc, hfrom] at this
            exact absurd this.symm hpne

/-- Strict per-sender nonce monotonicity along a list of pool objects. -/
def nonceMonoList (l : List PoolObject) : Prop :=
  l.Pairwise (fun a b => a.fromAcc = b.fromAcc → a.nonce < b.nonce)

/-- The drain loop hands out strictly ascending nonces per sender: if the
accumulated output is per-sender ascending and every queued item of a sender
dominates that sender's accumulated output, the final output is per-sender
ascending. -/
theorem processLoop_mono (size : Nat) :
    ∀ fuel q acc total, PendingQueue.WF q →
      nonceMonoList acc →
      (∀ e ∈ acc, ∀ r ∈ queueItems q, r.obj.fromAcc = e.fromAcc → e.nonce < r.obj.nonce) →
      nonceMonoList (processLoop size fuel q acc total).2.1 := by
  intro fuel
  induction fuel with
  | zero => intro q acc total _ hpair _; exact hpair
  | succ n ih =>
    intro q acc total hwf hpair hinv
    unfold processLoop
    split
    · exact hpair
    · split
      · exact hpair
      · rename_i tx hpeek
        split
        · exact hpair
        · split
          · rename_i it hpop2
            have hpop : q.pop = ((q.pop).1, some it) := Prod.ext_iff.mpr ⟨rfl, hpop2⟩
            obtain ⟨hmem, hwf', hsub, hstrict⟩ := pop_spec hwf hpop
            apply ih (q.pop).1 (acc ++ [it.obj]) (total + tx.obj.size) hwf'
            · rw [nonceMonoList, List.pairwise_append]
              refine ⟨hpair, List.pairwise_singleton _ _, ?_⟩
              intro a ha b hb
              rw [List.mem_singleton.mp hb]
              intro hacc
              exact hinv a ha it hmem (by rw [hacc])
            · intro e he r hr hracc
              rcases List.mem_append.mp he with h | h
              · exact hinv e h r (hsub r hr) hracc
              · rw [List.mem_singleton.mp h] at hracc ⊢
                exact hstrict r hr hracc
          · exact hpair

/-- **C9** (per-sender nonce monotonicity).  In one pack round
(`getProcessableObjects`), any two handed-out objects of the same sender
appear in strictly ascending nonce order; and a collection's `peek` always
returns a pending item of lowest nonce. -/
theorem getProcessable_nonce_mono (pool : Pool) (size : Nat)
    (hwf : pool.pendingQueue.WF) :
    nonceMonoList (pool.getProcessableObjects size).2.1 ∧
    (∀ (c : TxCollection) (it : PoolItem), c.peek = some it →
      it ∈ c.txs ∧ ∀ x ∈ c.txs, it.obj.nonce ≤ x.obj.nonce) := by
  constructor
  · exact processLoop_mono size pool.pendingQueue.count pool.pendingQueue [] 0 hwf
      (List.Pairwise.nil) (by simp)
  · intro c it hpk
    exact minNonceItem_spec hpk

/-- **C9 witness**: the pack-round theorem applied to a concrete two-sender
pool (sender 1 with nonces 2 and 1, sender 2 with nonce 5). -/
theorem getProcessable_nonce_mono_holds :
    nonceMonoList ((Pool.getProcessableObjects
      ⟨10, [], ⟨[(1, ⟨[⟨⟨1, 0, 2, 10, 101, 1⟩, 0⟩, ⟨⟨1, 0, 1, 10, 102, 1⟩, 0⟩]⟩),
                 (2, ⟨[⟨⟨2, 0, 5, 20, 201, 1⟩, 0⟩]⟩)]⟩, []⟩ 100).2.1) ∧
    (∀ (c : TxCollection) (it : PoolItem), c.peek = some it →
      it ∈ c.txs ∧ ∀ x ∈ c.txs, it.obj.nonce ≤ x.obj.nonce) :=
  getProcessable_nonce_mono _ 100
    (by unfold PendingQueue.WF TxCollection.WFc; decide)

/-- The number of pending items of a given `(sender, nonce)` pair. -/
def countSN (q : PendingQueue) (s n : Nat) : Nat :=
  ((queueItems q).filter (fun it => it.obj.fromAcc == s && it.obj.nonce == n)).length

/-- In a nonce-nodup item list, at most one item carries a given
`(sender, nonce)`. -/
theorem countNonce_le_one (s n : Nat) :
    ∀ l : List PoolItem, (l.map (fun it => it.obj.nonce)).Nodup →
    (l.filter (fun it => it.obj.fromAcc == s && it.obj.nonce == n)).length ≤ 1 := by
  intro l
  induction l with
  | nil => intro _; simp
  | cons x xs ih =>
    intro hnd
    rw [List.map_cons, List.nodup_cons] at hnd
    rw [List.filter_cons]
    by_cases hx : (x.obj.fromAcc == s && x.obj.nonce == n) = true
    · rw [if_pos hx]
      have hxn : x.obj.nonce = n := by
        have := (Bool.and_eq_true ..).mp hx
        simpa using this.2
      have hnil : xs.filter (fun it => it.obj.fromAcc == s && it.obj.nonce == n) = [] := by
        rw [List.filter_eq_nil_iff]
        intro it hit
        intro hc
        have hitn : it.obj.nonce = n := by
          have := (Bool.and_eq_true ..).mp hc
          simpa using this.2
        exact hnd.1 (by rw [hxn, ← hitn]; exact List.mem_map_of_mem _ hit)
      rw [hnil]
      simp
    · rw [if_neg hx]
      exact ih hnd.2

/-- At-most-one per `(sender, nonce)` over an explicit collection list. -/
theorem countColls_le_one (s n : Nat) :
    ∀ colls : List (Nat × TxCollection), (colls.map Prod.fst).Nodup →
      (∀ p ∈ colls, p.2.WFc p.1) →
      ((colls.flatMap (fun p => p.2.txs)).filter
        (fun it => it.obj.fromAcc == s && it.obj.nonce == n)).length ≤ 1 := by
  intro colls
  induction colls with
  | nil => intro _ _; simp
  | cons p rest ih =>
    intro hkeys hall
    rw [List.map_cons, List.nodup_cons] at hkeys
    have hwfc := hall p (List.mem_cons_self p rest)
    rw [List.flatMap_cons, List.filter_append, List.length_append]
    by_cases hps : p.1 = s
    · have hrest : (rest.flatMap (fun p => p.2.txs)).filter
          (fun it => it.obj.fromAcc == s && it.obj.nonce == n) = [] := by
        rw [List.filter_eq_nil_iff]
        intro it hit hc
        rw [List.mem_flatMap] at hit
        obtain ⟨p', hp', hin⟩ := hit
        have hfrom : it.obj.fromAcc = p'.1 :=
          (hall p' (List.mem_cons_of_mem p hp')).2 it hin
        have hits : it.obj.fromAcc = s := by
          have := (Bool.and_eq_true ..).mp hc
          simpa using this.1
        exact hkeys.1 (by
          rw [hps, ← hits, hfrom]
          exact List.mem_map_of_mem Prod.fst hp')
      rw [hrest]
      simpa using countNonce_le_one s n p.2.txs hwfc.1
    · have hhead : p.2.txs.filter
          (fun it => it.obj.fromAcc == s && it.obj.nonce == n) = [] := by
        rw [List.filter_eq_nil_iff]
        intro it hit hc
        have hfrom : it.obj.fromAcc = p.1 := hwfc.2 it hit
        have hits : it.obj.fromAcc = s := by
          have := (Bool.and_eq_true ..).mp hc
          simpa using this.1
        exact hps (by rw [← hfrom, hits])
      rw [hhead]
      simpa using ih hkeys.2 (fun p' hp' => hall p' (List.mem_cons_of_mem p hp'))

/-- At-most-one per `(sender, nonce)`: a well-formed queue never holds two
items of the same sender and nonce. -/
theorem countSN_le_one {q : PendingQueue} (hwf : q.WF) (s n : Nat) :
    countSN q s n ≤ 1 :=
  countColls_le_one s n q.colls hwf.1 hwf.2

/-- Replacing the nonce-matching item and then searching the nonce finds
the replacement, provided some item matched. -/
theorem findReplace_some (tx : PoolItem) :
    ∀ l : List PoolItem,
      (List.find? (fun it => it.obj.nonce == tx.obj.nonce) l).isSome = true →
      List.find? (fun it => it.obj.nonce == tx.obj.nonce)
        (l.map (fun it => if it.obj.nonce == tx.obj.nonce then tx else it)) = some tx := by
  intro l
  induction l with
  | nil => intro h; simp at h
  | cons x xs ih =>
    intro h
    rw [List.map_cons, List.find?_cons]
    by_cases hx : (x.obj.nonce == tx.obj.nonce) = true
    · rw [if_pos hx]
      have : (tx.obj.nonce == tx.obj.nonce) = true := by simp
      rw [this]
    · rw [if_neg hx, Bool.eq_false_iff.mpr hx]
      have h2 : (List.find? (fun it => it.obj.nonce == tx.obj.nonce) xs).isSome = true := by
        rw [List.find?_cons, Bool.eq_false_iff.mpr hx] at h
        exact h
      exact ih h2

/-- Appending the new item and then searching the nonce finds it, provided
no existing item matched. -/
theorem findAppend_none (tx : PoolItem) :
    ∀ l : List PoolItem,
      (∀ it ∈ l, ¬ (it.obj.nonce == tx.obj.nonce) = true) →
      List.find? (fun it => it.obj.nonce == tx.obj.nonce) (l ++ [tx]) = some tx := by
  intro l
  induction l with
  | nil => intro _; simp
  | cons x xs ih =>
    intro hnone
    have hx : (x.obj.nonce == tx.obj.nonce) = false :=
      Bool.eq_false_iff.mpr (hnone x (List.mem_cons_self x xs))
    rw [List.cons_append, List.find?_cons, hx]
    exact ih (fun it hit => hnone it (List.mem_cons_of_mem x hit))

/-- Inserting an item and then looking up its `(sender, nonce)` finds it. -/
theorem collGet_add (c : TxCollection) (tx : PoolItem) :
    ((c.add tx).1).get tx.obj.nonce = some tx := by
  unfold TxCollection.add
  cases hget : c.get tx.obj.nonce with
  | some e =>
    unfold TxCollection.get at hget ⊢
    exact findReplace_some tx c.txs (by rw [hget]; rfl)
  | none =>
    unfold TxCollection.get at hget ⊢
    exact findAppend_none tx c.txs (fun it hit => by
      have := List.find?_eq_none.mp hget it hit
      simpa using this)

/-- `find?` by key commutes with a key-preserving map. -/
theorem find?_key_map (g : (Nat × TxCollection) → (Nat × TxCollection))
    (hg : ∀ p, (g p).1 = p.1) (k : Nat) :
    ∀ l : List (Nat × TxCollection),
      List.find? (fun p => p.1 == k) (l.map g) = (List.find? (fun p => p.1 == k) l).map g := by
  intro l
  induction l with
  | nil => simp
  | cons x xs ih =>
    rw [List.map_cons, List.find?_cons, List.find?_cons, hg x]
    cases hx : (x.1 == k) with
    | true => simp
    | false => exact ih

/-- Inserting into the queue and then looking up the item's
`(sender, nonce)` finds it. -/
theorem queueGet_add (q : PendingQueue) (tx : PoolItem) :
    (q.add tx).get tx.obj.fromAcc tx.obj.nonce = some tx := by
  unfold PendingQueue.add
  cases hfind : q.colls.find? (fun p => p.1 == tx.obj.fromAcc) with
  | some p =>
    unfold PendingQueue.get
    rw [find?_key_map (fun p => if p.1 == tx.obj.fromAcc then (p.1, (p.2.add tx).1) else p)
      (by intro e
          dsimp only
          by_cases he : (e.1 == tx.obj.fromAcc) = true
          · rw [if_pos he]
          · rw [if_neg he]) tx.obj.fromAcc q.colls]
    rw [hfind]
    have hp := List.find?_some hfind
    rw [Option.map_some']
    rw [if_pos hp]
    exact collGet_add p.2 tx
  | none =>
    unfold PendingQueue.get
    have happ : ∀ l : List (Nat × TxCollection),
        (∀ e ∈ l, ¬ (e.1 == tx.obj.fromAcc) = true) →
        List.find? (fun p => p.1 == tx.obj.fromAcc)
          (l ++ [(tx.obj.fromAcc, (TxCollection.add ⟨[]⟩ tx).1)]) =
          some (tx.obj.fromAcc, (TxCollection.add ⟨[]⟩ tx).1) := by
      intro l
      induction l with
      | nil => intro _; simp
      | cons x xs ih =>
        intro hnone
        have hx : (x.1 == tx.obj.fromAcc) = false :=
          Bool.eq_false_iff.mpr (hnone x (List.mem_cons_self x xs))
        rw [List.cons_append, List.find?_cons, hx]
        exact ih (fun e he => hnone e (List.mem_cons_of_mem x he))
    rw [happ q.colls (List.find?_eq_none.mp hfind)]
    exact collGet_add ⟨[]⟩ tx

/-- A cons'd key is present. -/
theorem mapGet_cons_self {m : List (Nat × PoolItem)} {h : Nat} {v : PoolItem} :
    mapGet ((h, v) :: m) h = some v := by
  unfold mapGet
  rw [List.find?_cons]
  have : ((h, v).1 == h) = true := by simp
  rw [this]
  rfl

/-- Cons of a different key does not affect a lookup. -/
theorem mapGet_cons_ne {m : List (Nat × PoolItem)} {h k : Nat} {v : PoolItem}
    (hne : k ≠ h) : mapGet ((h, v) :: m) k = mapGet m k := by
  unfold mapGet
  rw [List.find?_cons]
  have : ((h, v).1 == k) = false := by simpa using fun hc => hne hc.symm
  rw [this]

/-- A present key stays absent after erasing another key. -/
theorem mapHas_mono_erase {m : List (Nat × PoolItem)} {h k : Nat}
    (habs : mapHas m k = false) : mapHas (mapErase m h) k = false := by
  by_cases hk : k = h
  · rw [hk]; exact mapHas_erase_self
  · rw [Bool.eq_false_iff] at habs ⊢
    intro hc
    apply habs
    rw [mapHas_iff_get] at hc ⊢
    rw [mapGet_erase_ne hk] at hc
    exact hc

/-- An absent key stays absent across a batch erase. -/
theorem mapHas_foldErase_false {k : Nat} :
    ∀ (l : List PoolItem) (m : List (Nat × PoolItem)), mapHas m k = false →
      mapHas (l.foldl (fun m it => mapErase m it.obj.hash) m) k = false := by
  intro l
  induction l with
  | nil => intro m h; exact h
  | cons x xs ih =>
    intro m h
    simp only [List.foldl_cons]
    exact ih _ (mapHas_mono_erase h)

/-- A lookup of a key outside the erased batch is unaffected. -/
theorem mapGet_foldErase_ne {k : Nat} :
    ∀ (l : List PoolItem) (m : List (Nat × PoolItem)), (∀ it ∈ l, k ≠ it.obj.hash) →
      mapGet (l.foldl (fun m it => mapErase m it.obj.hash) m) k = mapGet m k := by
  intro l
  induction l with
  | nil => intro m _; rfl
  | cons x xs ih =>
    intro m hne
    simp only [List.foldl_cons]
    rw [ih _ (fun it hit => hne it (List.mem_cons_of_mem x hit))]
    exact mapGet_erase_ne (hne x (List.mem_cons_self x xs))

/-- Batch-erase preserves nodup keys. -/
theorem nodupKeys_foldErase :
    ∀ (l : List PoolItem) (m : List (Nat × PoolItem)), (m.map Prod.fst).Nodup →
      ((l.foldl (fun m it => mapErase m it.obj.hash) m).map Prod.fst).Nodup := by
  intro l
  induction l with
  | nil => intro m h; exact h
  | cons x xs ih =>
    intro m h
    simp only [List.foldl_cons]
    exact ih _ (h.sublist (List.Sublist.map _ (List.filter_sublist m)))

/-- A present key forces a nonempty map. -/
theorem length_pos_of_has {m : List (Nat × PoolItem)} {h : Nat}
    (hhas : mapHas m h = true) : 1 ≤ m.length := by
  obtain ⟨v, hv⟩ := mapHas_iff_get.mp hhas
  have := mapGet_mem hv
  exact List.length_pos.mpr (by rintro rfl; simp at this)

/-- An absent key is no map key. -/
theorem not_mem_keys_of_not_has {m : List (Nat × PoolItem)} {h : Nat}
    (hhas : mapHas m h = false) : h ∉ m.map Prod.fst := by
  intro hc
  rw [List.mem_map] at hc
  obtain ⟨p, hp, hfst⟩ := hc
  unfold mapHas at hhas
  rw [Bool.eq_false_iff] at hhas
  apply hhas
  rw [Option.isSome_iff_ne_none]
  intro hnone
  rw [List.find?_eq_none] at hnone
  exact hnone p hp (by simpa using hfst)

/-- Items of the queue after an insert: the inserted item or an old one. -/
theorem mem_queueItems_add {q : PendingQueue} {tx r : PoolItem}
    (hmem : r ∈ queueItems (q.add tx)) : r = tx ∨ r ∈ queueItems q := by
  unfold PendingQueue.add at hmem
  cases hfind : q.colls.find? (fun p => p.1 == tx.obj.fromAcc) with
  | some p =>
    rw [hfind] at hmem
    obtain ⟨p', hp', hr⟩ := mem_queueItems.mp hmem
    rw [List.mem_map] at hp'
    obtain ⟨x, hx, hfx⟩ := hp'
    by_cases hxa : (x.1 == tx.obj.fromAcc) = true
    · rw [if_pos hxa] at hfx
      rw [← hfx] at hr
      unfold TxCollection.add at hr
      cases hget : x.2.get tx.obj.nonce with
      | some e =>
        rw [hget] at hr
        simp only at hr
        rw [List.mem_map] at hr
        obtain ⟨y, hy, hfy⟩ := hr
        by_cases hyn : (y.obj.nonce == tx.obj.nonce) = true
        · rw [if_pos hyn] at hfy; exact Or.inl hfy.symm
        · rw [if_neg hyn] at hfy
          right
          exact mem_queueItems.mpr ⟨x, hx, hfy ▸ hy⟩
      | none =>
        rw [hget] at hr
        simp only at hr
        rcases List.mem_append.mp hr with h | h
        · exact Or.inr (mem_queueItems.mpr ⟨x, hx, h⟩)
        · exact Or.inl (List.mem_singleton.mp h)
    · rw [if_neg hxa] at hfx
      rw [← hfx] at hr
      exact Or.inr (mem_queueItems.mpr ⟨x, hx, hr⟩)
  | none =>
    rw [hfind] at hmem
    obtain ⟨p', hp', hr⟩ := mem_queueItems.mp hmem
    rcases List.mem_append.mp hp' with h | h
    · exact Or.inr (mem_queueItems.mpr ⟨p', h, hr⟩)
    · rw [List.mem_singleton.mp h] at hr
      have : r = tx := by
        simpa [TxCollection.add, TxCollection.get] using hr
      exact Or.inl this

/-- Items of the queue after `remove s n`: old items, none of them carrying
the removed `(sender, nonce)` pair. -/
theorem mem_queueItems_remove {q : PendingQueue} (hwf : q.WF) {s n : Nat} {r : PoolItem}
    (hmem : r ∈ queueItems (q.remove s n)) :
    r ∈ queueItems q ∧ ¬(r.obj.fromAcc = s ∧ r.obj.nonce = n) := by
  unfold PendingQueue.remove at hmem
  cases hfind : q.colls.find? (fun p => p.1 == s) with
  | none =>
    rw [hfind] at hmem
    refine ⟨hmem, ?_⟩
    rintro ⟨hrs, hrn⟩
    obtain ⟨p', hp', hr⟩ := mem_queueItems.mp hmem
    have : r.obj.fromAcc = p'.1 := (hwf.2 p' hp').2 r hr
    rw [List.find?_eq_none] at hfind
    exact hfind p' hp' (by simpa using (this.symm.trans hrs))
  | some p =>
    rw [hfind] at hmem
    have hps : p.1 = s := by have := List.find?_some hfind; simpa using this
    have hp := List.mem_of_find?_eq_some hfind
    have hmem2 : r ∈ queueItems
        (let rr := p.2.remove n;
         if rr.2 then (if rr.1.len = 0 then q.removeKey s else q.updateKey s rr.1) else q) :=
      hmem
    unfold TxCollection.remove at hmem2
    cases hget : p.2.get n with
    | none =>
      rw [hget] at hmem2
      simp only [if_false] at hmem2
      refine ⟨hmem2, ?_⟩
      rintro ⟨hrs, hrn⟩
      obtain ⟨p', hp', hr⟩ := mem_queueItems.mp hmem2
      have hkey : r.obj.fromAcc = p'.1 := (hwf.2 p' hp').2 r hr
      have h1 : p'.1 = p.1 := by rw [← hkey, hrs, hps]
      have hpp : p' = p := List.inj_on_of_nodup_map hwf.1 hp' hp h1
      rw [hpp] at hr
      exact collGet_none hget r hr hrn
    | some e =>
      rw [hget] at hmem2
      simp only [if_true] at hmem2
      by_cases hlen : (p.2.removeNonce n).len = 0
      · rw [if_pos hlen] at hmem2
        obtain ⟨p', hp', hpne, hr⟩ := mem_queueItems_removeKey hmem2
        refine ⟨mem_queueItems.mpr ⟨p', hp', hr⟩, ?_⟩
        rintro ⟨hrs, _⟩
        have : r.obj.fromAcc = p'.1 := (hwf.2 p' hp').2 r hr
        exact hpne (by rw [← this, hrs])
      · rw [if_neg hlen] at hmem2
        rcases mem_queueItems_updateKey hmem2 with h | ⟨p', hp', hpne, hr⟩
        · obtain ⟨hin, hne⟩ := mem_removeNonce.mp h
          exact ⟨mem_queueItems.mpr ⟨p, hp, hin⟩, fun ⟨_, hrn⟩ => hne hrn⟩
        · refine ⟨mem_queueItems.mpr ⟨p', hp', hr⟩, ?_⟩
          rintro ⟨hrs, _⟩
          have : r.obj.fromAcc = p'.1 := (hwf.2 p' hp').2 r hr
          exact hpne (by rw [← this, hrs])

/-- `doRemoveObject` preserves pool well-formedness. -/
theorem WFp_doRemove {pool : Pool} (hwf : pool.WFp) (h : Nat) :
    (pool.doRemoveObject h).WFp := by
  unfold Pool.doRemoveObject
  cases hget : mapGet pool.hashToTxMap h with
  | none => exact hwf
  | some tx =>
    obtain ⟨hq, hnd, hlink⟩ := hwf
    refine ⟨WF_remove hq, ?_, ?_⟩
    · exact hnd.sublist (List.Sublist.map _ (List.filter_sublist _))
    · intro r hr
      obtain ⟨hrq, hrne⟩ := mem_queueItems_remove hq hr
      have hget_r := hlink r hrq
      have hne : r.obj.hash ≠ h := by
        intro hc
        rw [hc, hget] at hget_r
        obtain rfl : tx = r := by simpa using hget_r
        exact hrne ⟨rfl, rfl⟩
      rw [show mapErase pool.hashToTxMap h =
        mapErase pool.hashToTxMap h from rfl]
      rw [mapGet_erase_ne hne]
      exact hget_r

/-- `doAddObject` preserves pool well-formedness when the hash is fresh. -/
theorem WFp_doAdd {pool : Pool} (hwf : pool.WFp) {obj : PoolObject} (now : Nat)
    (hfresh : pool.Has obj.hash = false) : (pool.doAddObject obj now).WFp := by
  obtain ⟨hq, hnd, hlink⟩ := hwf
  have hfresh2 : mapHas pool.hashToTxMap obj.hash = false := hfresh
  unfold Pool.doAddObject Pool.WFp
  refine ⟨WF_add hq, ?_, ?_⟩
  · rw [List.map_cons, List.nodup_cons]
    exact ⟨not_mem_keys_of_not_has hfresh2, hnd⟩
  · intro r hr
    rcases mem_queueItems_add hr with rfl | hold
    · exact mapGet_cons_self
    · have hne : r.obj.hash ≠ obj.hash := by
        intro hc
        have hg := hlink r hold
        rw [hc] at hg
        have hhas2 : mapHas pool.hashToTxMap obj.hash = true :=
          mapHas_iff_get.mpr ⟨r, hg⟩
        rw [hhas2] at hfresh2
        exact Bool.noConfusion hfresh2
      rw [mapGet_cons_ne hne]
      exact hlink r hold

/-- The capacity branch preserves pool well-formedness for a fresh hash. -/
theorem WFp_addObjectCapacity {pool : Pool} (hwf : pool.WFp) {obj : PoolObject}
    (now : Nat) (hfresh : pool.Has obj.hash = false) :
    ((pool.addObjectCapacity obj now).1).WFp := by
  unfold Pool.addObjectCapacity
  split
  · split
    · exact hwf
    · rename_i p hdis
      split
      · exact hwf
      · rename_i hplen
        obtain ⟨hq, hnd, hlink⟩ := hwf
        -- the discarded collection is a queue collection
        unfold PendingQueue.discard at hdis
        cases hfold : pool.pendingQueue.colls.foldl (discardStep obj.price) none with
        | none => rw [hfold] at hdis; simp at hdis
        | some p0 =>
          rw [hfold] at hdis
          obtain rfl : p0 = p := by simpa using hdis
          have hq1 : (pool.pendingQueue.discard obj.price).1 =
              pool.pendingQueue.removeKey p0.1 := by
            unfold PendingQueue.discard; rw [hfold]
          rw [hq1]
          obtain ⟨hp0mem, _⟩ := discardGo_some obj.price pool.pendingQueue.colls none p0
            (fun b hb => Option.noConfusion hb) hfold
          have hp0 : p0 ∈ pool.pendingQueue.colls := by
            rcases hp0mem with h | h
            · exact h
            · exact Option.noConfusion h
          -- the intermediate pool: evicted map, sender dropped
          have hwfmid : (Pool.mk pool.capacity
              (p0.2.txs.foldl (fun m it => mapErase m it.obj.hash) pool.hashToTxMap)
              (pool.pendingQueue.removeKey p0.1) pool.processingObjects).WFp := by
            refine ⟨WF_removeKey hq, nodupKeys_foldErase _ _ hnd, ?_⟩
            intro r hr
            obtain ⟨p', hp', hpne, hrin⟩ := mem_queueItems_removeKey hr
            have hrq : r ∈ queueItems pool.pendingQueue := mem_queueItems.mpr ⟨p', hp', hrin⟩
            have hget_r := hlink r hrq
            have hnever : ∀ it ∈ p0.2.txs, r.obj.hash ≠ it.obj.hash := by
              intro it hit hc
              have hget_it := hlink it (mem_queueItems.mpr ⟨p0, hp0, hit⟩)
              rw [hc] at hget_r
              rw [hget_it] at hget_r
              obtain rfl : it = r := by simpa using hget_r
              have h1 : it.obj.fromAcc = p'.1 := (hq.2 p' hp').2 it hrin
              have h2 : it.obj.fromAcc = p0.1 := (hq.2 p0 hp0).2 it hit
              exact hpne (by rw [← h1, h2])
            rw [mapGet_foldErase_ne p0.2.txs pool.hashToTxMap hnever]
            exact hget_r
          have hfreshmid : mapHas (p0.2.txs.foldl (fun m it => mapErase m it.obj.hash)
              pool.hashToTxMap) obj.hash = false :=
            mapHas_foldErase_false p0.2.txs pool.hashToTxMap hfresh
          exact WFp_doAdd hwfmid now hfreshmid
  · exact WFp_doAdd hwf now hfresh

/-- The capacity branch keeps the pool within capacity. -/
theorem len_addObjectCapacity {pool : Pool} (hwf : pool.WFp) {obj : PoolObject}
    (now : Nat) (hcap : pool.hashToTxMap.length ≤ pool.capacity) :
    ((pool.addObjectCapacity obj now).1).hashToTxMap.length ≤ pool.capacity := by
  unfold Pool.addObjectCapacity
  split
  · split
    · exact hcap
    · rename_i p hdis
      split
      · exact hcap
      · rename_i hplen
        unfold PendingQueue.discard at hdis
        cases hfold : pool.pendingQueue.colls.foldl (discardStep obj.price) none with
        | none => rw [hfold] at hdis; simp at hdis
        | some p0 =>
          rw [hfold] at hdis
          obtain rfl : p0 = p := by simpa using hdis
          obtain ⟨hp0mem, hbelow⟩ := discardGo_some obj.price pool.pendingQueue.colls none p0
            (fun b hb => Option.noConfusion hb) hfold
          have hp0 : p0 ∈ pool.pendingQueue.colls := by
            rcases hp0mem with h | h
            · exact h
            · exact Option.noConfusion h
          -- the evicted collection holds at least one mapped item: its head
          unfold headBelowB at hbelow
          cases hpk : p0.2.peek with
          | none => rw [hpk] at hbelow; simp at hbelow
          | some itm =>
            obtain ⟨hitm, _⟩ := minNonceItem_spec hpk
            have hhas : mapHas pool.hashToTxMap itm.obj.hash = true :=
              mapHas_iff_get.mpr ⟨itm, hwf.2.2 itm (mem_queueItems.mpr ⟨p0, hp0, hitm⟩)⟩
            have hlt := length_foldErase_lt (l := p0.2.txs) (m := pool.hashToTxMap)
              ⟨itm, hitm, hhas⟩
            show (p0.2.txs.foldl (fun m it => mapErase m it.obj.hash)
              pool.hashToTxMap).length + 1 ≤ pool.capacity
            omega
  · show pool.hashToTxMap.length + 1 ≤ pool.capacity
    rename_i hge
    omega

/-- `addObject` preserves pool well-formedness. -/
theorem WFp_addObject {pool : Pool} (hwf : pool.WFp)
    (validation : PoolObject → Option PoolErr) (now : Nat) (obj : PoolObject) :
    ((Pool.addObject validation now pool obj).1).WFp := by
  unfold Pool.addObject
  split
  · exact hwf
  · rename_i hhas
    have hfresh : pool.Has obj.hash = false := Bool.eq_false_iff.mpr hhas
    split
    · exact hwf
    · split
      · rename_i existTx hget
        split
        · have hwf1 := WFp_doRemove hwf existTx.obj.hash
          have hfresh1 : (pool.doRemoveObject existTx.obj.hash).Has obj.hash = false := by
            unfold Pool.doRemoveObject Pool.Has
            cases hg : mapGet pool.hashToTxMap existTx.obj.hash with
            | none => exact hfresh
            | some tx => exact mapHas_mono_erase hfresh
          exact WFp_addObjectCapacity hwf1 now hfresh1
        · exact hwf
      · exact WFp_addObjectCapacity hwf now hfresh

/-- A cons'd key tests present. -/
theorem mapHas_cons_self {m : List (Nat × PoolItem)} {h : Nat} {v : PoolItem} :
    mapHas ((h, v) :: m) h = true :=
  mapHas_iff_get.mpr ⟨v, mapGet_cons_self⟩

/-- Cons of a different key does not affect a membership test. -/
theorem mapHas_cons_ne {m : List (Nat × PoolItem)} {h k : Nat} {v : PoolItem}
    (hne : k ≠ h) : mapHas ((h, v) :: m) k = mapHas m k := by
  unfold mapHas
  rw [List.find?_cons]
  have : ((h, v).1 == k) = false := by simpa using fun hc => hne hc.symm
  rw [this]

/-- After batch-erasing a list of items, none of their hashes remains. -/
theorem mapHas_foldErase_mem :
    ∀ (l : List PoolItem) (m : List (Nat × PoolItem)), ∀ it ∈ l,
      mapHas (l.foldl (fun m it => mapErase m it.obj.hash) m) it.obj.hash = false := by
  intro l
  induction l with
  | nil => intro m it hit; simp at hit
  | cons x xs ih =>
    intro m it hit
    simp only [List.foldl_cons]
    rcases List.mem_cons.mp hit with rfl | hxs
    · exact mapHas_foldErase_false xs _ mapHas_erase_self
    · exact ih _ it hxs

/-- A collection whose head is priced below the bound is nonempty. -/
theorem headBelowB_len_ne {price : Int} {p : Nat × TxCollection}
    (hb : headBelowB price p = true) : ¬ p.2.len = 0 := by
  unfold headBelowB at hb
  cases hpk : p.2.peek with
  | none => rw [hpk] at hb; simp at hb
  | some itm =>
    obtain ⟨hmem, _⟩ := minNonceItem_spec hpk
    unfold TxCollection.len
    intro hc
    rw [List.length_eq_zero] at hc
    rw [hc] at hmem
    simp at hmem

/-- `doRemoveObject` never grows the hash map. -/
theorem doRemove_len_le (pool : Pool) (h : Nat) :
    (pool.doRemoveObject h).hashToTxMap.length ≤ pool.hashToTxMap.length := by
  unfold Pool.doRemoveObject
  cases mapGet pool.hashToTxMap h with
  | none => exact le_refl _
  | some tx => exact length_mapErase_le _ _

/-- `doRemoveObject` preserves the capacity field. -/
theorem doRemove_capacity (pool : Pool) (h : Nat) :
    (pool.doRemoveObject h).capacity = pool.capacity := by
  unfold Pool.doRemoveObject
  cases mapGet pool.hashToTxMap h with
  | none => rfl
  | some tx => rfl

/-- **C3** (replace-by-higher-price).  When a pending item with the incoming
object's `(sender, nonce)` exists and the object's hash is fresh and
validation passes: if the incoming price strictly exceeds the existing
price, `addObject` succeeds, the pair now maps to the new item, the pool
size is unchanged, the new hash is present and the old absent; otherwise
`addObject` fails with `errObjectNonceUsed` and the pool is unchanged.  In
either case the queue holds at most one item per `(sender, nonce)`. -/
theorem addObject_replace_by_higher_price
    (validation : PoolObject → Option PoolErr) (now : Nat) (pool : Pool)
    (obj : PoolObject) (existTx : PoolItem)
    (hwf : pool.WFp) (hcap : pool.hashToTxMap.length ≤ pool.capacity)
    (hfresh : pool.Has obj.hash = false) (hval : validation obj = none)
    (hget : pool.pendingQueue.get obj.fromAcc obj.nonce = some existTx) :
    (existTx.obj.price < obj.price →
      (Pool.addObject validation now pool obj).2 = none ∧
      (Pool.addObject validation now pool obj).1.pendingQueue.get obj.fromAcc obj.nonce =
        some ⟨obj, now⟩ ∧
      (Pool.addObject validation now pool obj).1.hashToTxMap.length =
        pool.hashToTxMap.length ∧
      mapHas (Pool.addObject validation now pool obj).1.hashToTxMap obj.hash = true ∧
      mapHas (Pool.addObject validation now pool obj).1.hashToTxMap
        existTx.obj.hash = false) ∧
    (¬ existTx.obj.price < obj.price →
      Pool.addObject validation now pool obj = (pool, some .objectNonceUsed)) ∧
    (∀ s n, countSN (Pool.addObject validation now pool obj).1.pendingQueue s n ≤ 1) := by
  have heq : Pool.addObject validation now pool obj =
      (if existTx.obj.price < obj.price
       then (pool.doRemoveObject existTx.obj.hash).addObjectCapacity obj now
       else (pool, some .objectNonceUsed)) := by
    unfold Pool.addObject
    rw [show pool.Has obj.hash = false from hfresh, hval, hget]
    rfl
  -- the existing item is stored in the hash map under its own hash
  obtain ⟨c, hcmem, hexin, hexn⟩ := queueGet_some hget
  have hexfrom : existTx.obj.fromAcc = obj.fromAcc :=
    (hwf.1.2 (obj.fromAcc, c) hcmem).2 existTx hexin
  have hexq : existTx ∈ queueItems pool.pendingQueue :=
    mem_queueItems.mpr ⟨(obj.fromAcc, c), hcmem, hexin⟩
  have hlinkex : mapGet pool.hashToTxMap existTx.obj.hash = some existTx :=
    hwf.2.2 existTx hexq
  have hhasex : mapHas pool.hashToTxMap existTx.obj.hash = true :=
    mapHas_iff_get.mpr ⟨existTx, hlinkex⟩
  have hlenpos : 1 ≤ pool.hashToTxMap.length := length_pos_of_has hhasex
  have hne : obj.hash ≠ existTx.obj.hash := by
    intro hc
    have : mapHas pool.hashToTxMap obj.hash = true := by rw [hc]; exact hhasex
    have hfresh2 : mapHas pool.hashToTxMap obj.hash = false := hfresh
    rw [this] at hfresh2
    exact Bool.noConfusion hfresh2
  refine ⟨?_, ?_, ?_⟩
  · intro hprice
    rw [heq, if_pos hprice]
    have hrem : pool.doRemoveObject existTx.obj.hash =
        { pool with
          pendingQueue := pool.pendingQueue.remove existTx.obj.fromAcc existTx.obj.nonce
          processingObjects :=
            pool.processingObjects.filter (fun h => h != existTx.obj.hash)
          hashToTxMap := mapErase pool.hashToTxMap existTx.obj.hash } := by
      unfold Pool.doRemoveObject
      rw [hlinkex]
    rw [hrem]
    have hlen1 : (mapErase pool.hashToTxMap existTx.obj.hash).length =
        pool.hashToTxMap.length - 1 := length_mapErase_of_has hwf.2.1 hhasex
    have hnotcap : ¬ (pool.capacity ≤ (mapErase pool.hashToTxMap existTx.obj.hash).length) := by
      rw [hlen1]
      omega
    have hstep : ∀ pl : Pool, ¬ (pl.capacity ≤ pl.hashToTxMap.length) →
        pl.addObjectCapacity obj now = (pl.doAddObject obj now, none) := by
      intro pl hpl
      unfold Pool.addObjectCapacity
      rw [if_neg hpl]
    rw [hstep _ hnotcap]
    simp only [Pool.doAddObject]
    refine ⟨trivial, ?_, ?_, ?_, ?_⟩
    · exact queueGet_add _ ⟨obj, now⟩
    · show (mapErase pool.hashToTxMap existTx.obj.hash).length + 1 =
        pool.hashToTxMap.length
      omega
    · exact mapHas_cons_self
    · have hne2 : existTx.obj.hash ≠ obj.hash := fun hc => hne hc.symm
      rw [mapHas_cons_ne hne2]
      exact mapHas_erase_self
  · intro hprice
    rw [heq, if_neg hprice]
  · intro s n
    exact countSN_le_one (WFp_addObject hwf validation now obj).1 s n

/-- **C3 witness**: the replace theorem applied to a concrete pool holding
sender 7, nonce 3, price 10 under hash 1, and an incoming object with price
20 under hash 2. -/
theorem addObject_replace_by_higher_price_holds :
    ((⟨⟨7, 0, 3, 10, 1, 1⟩, 0⟩ : PoolItem).obj.price < (⟨7, 0, 3, 20, 2, 1⟩ : PoolObject).price →
      (Pool.addObject (fun _ => none) 5
        ⟨5, [(1, ⟨⟨7, 0, 3, 10, 1, 1⟩, 0⟩)], ⟨[(7, ⟨[⟨⟨7, 0, 3, 10, 1, 1⟩, 0⟩]⟩)]⟩, []⟩
        ⟨7, 0, 3, 20, 2, 1⟩).2 = none ∧
      (Pool.addObject (fun _ => none) 5
        ⟨5, [(1, ⟨⟨7, 0, 3, 10, 1, 1⟩, 0⟩)], ⟨[(7, ⟨[⟨⟨7, 0, 3, 10, 1, 1⟩, 0⟩]⟩)]⟩, []⟩
        ⟨7, 0, 3, 20, 2, 1⟩).1.pendingQueue.get (⟨7, 0, 3, 20, 2, 1⟩ : PoolObject).fromAcc
        (⟨7, 0, 3, 20, 2, 1⟩ : PoolObject).nonce = some ⟨⟨7, 0, 3, 20, 2, 1⟩, 5⟩ ∧
      (Pool.addObject (fun _ => none) 5
        ⟨5, [(1, ⟨⟨7, 0, 3, 10, 1, 1⟩, 0⟩)], ⟨[(7, ⟨[⟨⟨7, 0, 3, 10, 1, 1⟩, 0⟩]⟩)]⟩, []⟩
        ⟨7, 0, 3, 20, 2, 1⟩).1.hashToTxMap.length =
        (⟨5, [(1, ⟨⟨7, 0, 3, 10, 1, 1⟩, 0⟩)], ⟨[(7, ⟨[⟨⟨7, 0, 3, 10, 1, 1⟩, 0⟩]⟩)]⟩, []⟩ :
          Pool).hashToTxMap.length ∧
      mapHas (Pool.addObject (fun _ => none) 5
        ⟨5, [(1, ⟨⟨7, 0, 3, 10, 1, 1⟩, 0⟩)], ⟨[(7, ⟨[⟨⟨7, 0, 3, 10, 1, 1⟩, 0⟩]⟩)]⟩, []⟩
        ⟨7, 0, 3, 20, 2, 1⟩).1.hashToTxMap (⟨7, 0, 3, 20, 2, 1⟩ : PoolObject).hash = true ∧
      mapHas (Pool.addObject (fun _ => none) 5
        ⟨5, [(1, ⟨⟨7, 0, 3, 10, 1, 1⟩, 0⟩)], ⟨[(7, ⟨[⟨⟨7, 0, 3, 10, 1, 1⟩, 0⟩]⟩)]⟩, []⟩
        ⟨7, 0, 3, 20, 2, 1⟩).1.hashToTxMap
        (⟨⟨7, 0, 3, 10, 1, 1⟩, 0⟩ : PoolItem).obj.hash = false) ∧
    (¬ (⟨⟨7, 0, 3, 10, 1, 1⟩, 0⟩ : PoolItem).obj.price <
        (⟨7, 0, 3, 20, 2, 1⟩ : PoolObject).price →
      Pool.addObject (fun _ => none) 5
        ⟨5, [(1, ⟨⟨7, 0, 3, 10, 1, 1⟩, 0⟩)], ⟨[(7, ⟨[⟨⟨7, 0, 3, 10, 1, 1⟩, 0⟩]⟩)]⟩, []⟩
        ⟨7, 0, 3, 20, 2, 1⟩ =
        (⟨5, [(1, ⟨⟨7, 0, 3, 10, 1, 1⟩, 0⟩)], ⟨[(7, ⟨[⟨⟨7, 0, 3, 10, 1, 1⟩, 0⟩]⟩)]⟩, []⟩,
         some .objectNonceUsed)) ∧
    (∀ s n, countSN (Pool.addObject (fun _ => none) 5
      ⟨5, [(1, ⟨⟨7, 0, 3, 10, 1, 1⟩, 0⟩)], ⟨[(7, ⟨[⟨⟨7, 0, 3, 10, 1, 1⟩, 0⟩]⟩)]⟩, []⟩
      ⟨7, 0, 3, 20, 2, 1⟩).1.pendingQueue s n ≤ 1) :=
  addObject_replace_by_higher_price (fun _ => none) 5
    ⟨5, [(1, ⟨⟨7, 0, 3, 10, 1, 1⟩, 0⟩)], ⟨[(7, ⟨[⟨⟨7, 0, 3, 10, 1, 1⟩, 0⟩]⟩)]⟩, []⟩
    ⟨7, 0, 3, 20, 2, 1⟩ ⟨⟨7, 0, 3, 10, 1, 1⟩, 0⟩
    (by unfold Pool.WFp PendingQueue.WF TxCollection.WFc queueItems; decide)
    (by decide) (by decide) rfl (by decide)

/-- **C4** (capacity bound and eviction policy).  From a well-formed pool
within capacity, every `addObject` — successful or failed — leaves the pool
within capacity.  At capacity (with a fresh hash, passing validation and no
same-`(sender, nonce)` replacement): the add fails with `errObjectPoolFull`
exactly when no sender collection's head price is strictly below the
incoming price, leaving the pool unchanged; and when `discard` yields a
collection, the add succeeds and every item of that (qualifying, pending)
collection is gone from the hash map. -/
theorem addObject_capacity_bound
    (validation : PoolObject → Option PoolErr) (now : Nat) (pool : Pool)
    (obj : PoolObject) (hwf : pool.WFp)
    (hcap : pool.hashToTxMap.length ≤ pool.capacity) :
    ((Pool.addObject validation now pool obj).1.hashToTxMap.length ≤ pool.capacity) ∧
    (pool.Has obj.hash = false → validation obj = none →
     pool.pendingQueue.get obj.fromAcc obj.nonce = none →
     pool.capacity ≤ pool.hashToTxMap.length →
     (((Pool.addObject validation now pool obj).2 = some .objectPoolFull ↔
        ∀ p ∈ pool.pendingQueue.colls, headBelowB obj.price p = false) ∧
      ((Pool.addObject validation now pool obj).2 = some .objectPoolFull →
        (Pool.addObject validation now pool obj).1 = pool) ∧
      (∀ p, (pool.pendingQueue.discard obj.price).2 = some p →
        (Pool.addObject validation now pool obj).2 = none ∧
        p ∈ pool.pendingQueue.colls ∧ headBelowB obj.price p = true ∧
        ∀ it ∈ p.2.txs,
          mapHas (Pool.addObject validation now pool obj).1.hashToTxMap
            it.obj.hash = false))) := by
  constructor
  · -- capacity bound across every branch
    unfold Pool.addObject
    split
    · exact hcap
    · split
      · exact hcap
      · split
        · rename_i existTx hget
          split
          · have hwf1 := WFp_doRemove hwf existTx.obj.hash
            have hle := doRemove_len_le pool existTx.obj.hash
            have hres := @len_addObjectCapacity (pool.doRemoveObject existTx.obj.hash)
              hwf1 obj now (by rw [doRemove_capacity]; exact le_trans hle hcap)
            rw [doRemove_capacity] at hres
            exact hres
          · exact hcap
        · exact len_addObjectCapacity hwf now hcap
  · intro hfresh hval hgetnone hge
    have heq : Pool.addObject validation now pool obj = pool.addObjectCapacity obj now := by
      unfold Pool.addObject
      rw [show pool.Has obj.hash = false from hfresh, hval, hgetnone]
      rfl
    rw [heq]
    unfold Pool.addObjectCapacity
    rw [if_pos hge]
    have hprov : ∀ p : Nat × TxCollection,
        (pool.pendingQueue.discard obj.price).2 = some p →
        p ∈ pool.pendingQueue.colls ∧ headBelowB obj.price p = true := by
      intro p hdis
      unfold PendingQueue.discard at hdis
      cases hfold : pool.pendingQueue.colls.foldl (discardStep obj.price) none with
      | none => rw [hfold] at hdis; simp at hdis
      | some p0 =>
        rw [hfold] at hdis
        obtain rfl : p0 = p := by simpa using hdis
        obtain ⟨hmem, hb⟩ := discardGo_some obj.price pool.pendingQueue.colls none p0
          (fun b hb => Option.noConfusion hb) hfold
        rcases hmem with h | h
        · exact ⟨h, hb⟩
        · exact Option.noConfusion h
    refine ⟨?_, ?_, ?_⟩
    · -- PoolFull iff no qualifying collection
      split
      · rename_i hdis
        constructor
        · intro _
          unfold PendingQueue.discard at hdis
          cases hfold : pool.pendingQueue.colls.foldl (discardStep obj.price) none with
          | none => exact (discardGo_none_iff obj.price pool.pendingQueue.colls).mp hfold
          | some p0 => rw [hfold] at hdis; simp at hdis
        · intro _; rfl
      · rename_i p hdis
        obtain ⟨hpmem, hbelow⟩ := hprov p hdis
        rw [if_neg (headBelowB_len_ne hbelow)]
        constructor
        · intro hc; exact Option.noConfusion hc
        · intro hall
          rw [hall p hpmem] at hbelow
          exact Bool.noConfusion hbelow
    · -- PoolFull leaves the pool unchanged
      split
      · intro _; rfl
      · rename_i p hdis
        obtain ⟨hpmem, hbelow⟩ := hprov p hdis
        rw [if_neg (headBelowB_len_ne hbelow)]
        intro hc
        exact absurd hc (by simp)
    · -- the eviction effect
      intro p hdis
      obtain ⟨hpmem, hbelow⟩ := hprov p hdis
      split
      · rename_i hdis2
        rw [hdis2] at hdis
        exact Option.noConfusion hdis
      · rename_i p' hdis2
        obtain rfl : p' = p := by rw [hdis2] at hdis; simpa using hdis
        rw [if_neg (headBelowB_len_ne hbelow)]
        refine ⟨rfl, hpmem, hbelow, ?_⟩
        intro it hit
        simp only [Pool.doAddObject]
        have hitq : it ∈ queueItems pool.pendingQueue := mem_queueItems.mpr ⟨p', hpmem, hit⟩
        have hitlink := hwf.2.2 it hitq
        have hitne : it.obj.hash ≠ obj.hash := by
          intro hc
          have hhas2 : mapHas pool.hashToTxMap obj.hash = true :=
            mapHas_iff_get.mpr ⟨it, by rw [← hc]; exact hitlink⟩
          have hfresh2 : mapHas pool.hashToTxMap obj.hash = false := hfresh
          rw [hhas2] at hfresh2
          exact Bool.noConfusion hfresh2
        rw [mapHas_cons_ne hitne]
        exact mapHas_foldErase_mem p'.2.txs pool.hashToTxMap it hit

/-- **C4 witness**: the capacity theorem applied to a pool at capacity 1
holding sender 7 (price 10) and an incoming object of price 20 from
sender 8. -/
theorem addObject_capacity_bound_holds :
    ((Pool.addObject (fun _ => none) 5
      ⟨1, [(1, ⟨⟨7, 0, 3, 10, 1, 1⟩, 0⟩)], ⟨[(7, ⟨[⟨⟨7, 0, 3, 10, 1, 1⟩, 0⟩]⟩)]⟩, []⟩
      ⟨8, 0, 4, 20, 2, 1⟩).1.hashToTxMap.length ≤
      (⟨1, [(1, ⟨⟨7, 0, 3, 10, 1, 1⟩, 0⟩)], ⟨[(7, ⟨[⟨⟨7, 0, 3, 10, 1, 1⟩, 0⟩]⟩)]⟩, []⟩ :
        Pool).capacity) ∧
    ((⟨1, [(1, ⟨⟨7, 0, 3, 10, 1, 1⟩, 0⟩)], ⟨[(7, ⟨[⟨⟨7, 0, 3, 10, 1, 1⟩, 0⟩]⟩)]⟩, []⟩ :
        Pool).Has (⟨8, 0, 4, 20, 2, 1⟩ : PoolObject).hash = false →
     (fun _ => (none : Option PoolErr)) (⟨8, 0, 4, 20, 2, 1⟩ : PoolObject) = none →
     (⟨1, [(1, ⟨⟨7, 0, 3, 10, 1, 1⟩, 0⟩)], ⟨[(7, ⟨[⟨⟨7, 0, 3, 10, 1, 1⟩, 0⟩]⟩)]⟩, []⟩ :
        Pool).pendingQueue.get (⟨8, 0, 4, 20, 2, 1⟩ : PoolObject).fromAcc
        (⟨8, 0, 4, 20, 2, 1⟩ : PoolObject).nonce = none →
     (⟨1, [(1, ⟨⟨7, 0, 3, 10, 1, 1⟩, 0⟩)], ⟨[(7, ⟨[⟨⟨7, 0, 3, 10, 1, 1⟩, 0⟩]⟩)]⟩, []⟩ :
        Pool).capacity ≤
       (⟨1, [(1, ⟨⟨7, 0, 3, 10, 1, 1⟩, 0⟩)], ⟨[(7, ⟨[⟨⟨7, 0, 3, 10, 1, 1⟩, 0⟩]⟩)]⟩, []⟩ :
        Pool).hashToTxMap.length →
     (((Pool.addObject (fun _ => none) 5
        ⟨1, [(1, ⟨⟨7, 0, 3, 10, 1, 1⟩, 0⟩)], ⟨[(7, ⟨[⟨⟨7, 0, 3, 10, 1, 1⟩, 0⟩]⟩)]⟩, []⟩
        ⟨8, 0, 4, 20, 2, 1⟩).2 = some .objectPoolFull ↔
        ∀ p ∈ (⟨1, [(1, ⟨⟨7, 0, 3, 10, 1, 1⟩, 0⟩)], ⟨[(7, ⟨[⟨⟨7, 0, 3, 10, 1, 1⟩, 0⟩]⟩)]⟩, []⟩ :
          Pool).pendingQueue.colls, headBelowB (⟨8, 0, 4, 20, 2, 1⟩ : PoolObject).price p = false) ∧
      ((Pool.addObject (fun _ => none) 5
        ⟨1, [(1, ⟨⟨7, 0, 3, 10, 1, 1⟩, 0⟩)], ⟨[(7, ⟨[⟨⟨7, 0, 3, 10, 1, 1⟩, 0⟩]⟩)]⟩, []⟩
        ⟨8, 0, 4, 20, 2, 1⟩).2 = some .objectPoolFull →
        (Pool.addObject (fun _ => none) 5
        ⟨1, [(1, ⟨⟨7, 0, 3, 10, 1, 1⟩, 0⟩)], ⟨[(7, ⟨[⟨⟨7, 0, 3, 10, 1, 1⟩, 0⟩]⟩)]⟩, []⟩
        ⟨8, 0, 4, 20, 2, 1⟩).1 =
        ⟨1, [(1, ⟨⟨7, 0, 3, 10, 1, 1⟩, 0⟩)], ⟨[(7, ⟨[⟨⟨7, 0, 3, 10, 1, 1⟩, 0⟩]⟩)]⟩, []⟩) ∧
      (∀ p, ((⟨1, [(1, ⟨⟨7, 0, 3, 10, 1, 1⟩, 0⟩)], ⟨[(7, ⟨[⟨⟨7, 0, 3, 10, 1, 1⟩, 0⟩]⟩)]⟩, []⟩ :
          Pool).pendingQueue.discard (⟨8, 0, 4, 20, 2, 1⟩ : PoolObject).price).2 = some p →
        (Pool.addObject (fun _ => none) 5
          ⟨1, [(1, ⟨⟨7, 0, 3, 10, 1, 1⟩, 0⟩)], ⟨[(7, ⟨[⟨⟨7, 0, 3, 10, 1, 1⟩, 0⟩]⟩)]⟩, []⟩
          ⟨8, 0, 4, 20, 2, 1⟩).2 = none ∧
        p ∈ (⟨1, [(1, ⟨⟨7, 0, 3, 10, 1, 1⟩, 0⟩)], ⟨[(7, ⟨[⟨⟨7, 0, 3, 10, 1, 1⟩, 0⟩]⟩)]⟩, []⟩ :
          Pool).pendingQueue.colls ∧
        headBelowB (⟨8, 0, 4, 20, 2, 1⟩ : PoolObject).price p = true ∧
        ∀ it ∈ p.2.txs,
          mapHas (Pool.addObject (fun _ => none) 5
            ⟨1, [(1, ⟨⟨7, 0, 3, 10, 1, 1⟩, 0⟩)], ⟨[(7, ⟨[⟨⟨7, 0, 3, 10, 1, 1⟩, 0⟩]⟩)]⟩, []⟩
            ⟨8, 0, 4, 20, 2, 1⟩).1.hashToTxMap it.obj.hash = false))) :=
  addObject_capacity_bound (fun _ => none) 5
    ⟨1, [(1, ⟨⟨7, 0, 3, 10, 1, 1⟩, 0⟩)], ⟨[(7, ⟨[⟨⟨7, 0, 3, 10, 1, 1⟩, 0⟩]⟩)]⟩, []⟩
    ⟨8, 0, 4, 20, 2, 1⟩
    (by unfold Pool.WFp PendingQueue.WF TxCollection.WFc queueItems; decide)
    (by decide)

end PoolLemmas

/-- **C1** (PoW round-trip).  If a `StartMining` step publishes a block for
some nonce — the determinant recomputed from the hash of the header with
`witness = decimal(nonce)` reached the target — then `verifyTarget` accepts
the published header; `verifyTarget` rejects a header with `InvalidNonce`
exactly when the recomputed determinant is strictly below the target; and
the target is `min(difficulty * 3*10^9, 2*10^30)`.  Quantified over every
hash function and every (deterministic) determinant assignment. -/
theorem zpow_seal_verify_roundtrip (hashFn : ZHeader → Nat) (detAt : Nat → Nat → ℚ)
    (header : ZHeader) (nonce : Nat) (blk : ZBlock)
    (hseal : startMiningAttempt hashFn detAt header nonce = some blk) :
    verifyTarget hashFn detAt blk.header = none ∧
    blk.header.witness = toString nonce ∧
    blk.headerHash = hashFn blk.header ∧
    blk.header.difficulty = header.difficulty ∧
    blk.header.height = header.height ∧
    (∀ h' : ZHeader, verifyTarget hashFn detAt h' = some .blockNonceInvalid ↔
      detAt (hashFn h') h'.height < (getMiningTarget h'.difficulty : ℚ)) ∧
    (∀ d : Nat, getMiningTarget d = min (d * multiplier) maxDet30x30) := by
  have hmin : ∀ d : Nat, getMiningTarget d = min (d * multiplier) maxDet30x30 := by
    intro d; unfold getMiningTarget
    rcases le_or_lt (d * multiplier) maxDet30x30 with h | h
    · simp only [if_neg (not_lt.mpr h), min_eq_left h]
    · simp only [if_pos h, min_eq_right h.le]
  have hiff : ∀ h' : ZHeader, verifyTarget hashFn detAt h' = some .blockNonceInvalid ↔
      detAt (hashFn h') h'.height < (getMiningTarget h'.difficulty : ℚ) := by
    intro h'; unfold verifyTarget
    constructor
    · intro hv; by_contra hlt; rw [if_neg hlt] at hv; exact Option.noConfusion hv
    · intro hlt; rw [if_pos hlt]
  unfold startMiningAttempt at hseal
  by_cases hc : (getMiningTarget header.difficulty : ℚ) ≤
      detAt (hashFn { header with witness := toString nonce })
        ({ header with witness := toString nonce } : ZHeader).height
  · rw [if_pos hc] at hseal
    obtain rfl : ZBlock.mk { header with witness := toString nonce }
        (hashFn { header with witness := toString nonce }) = blk := Option.some.inj hseal
    refine ⟨?_, rfl, rfl, rfl, rfl, hiff, hmin⟩
    unfold verifyTarget
    exact if_neg (not_lt.mpr hc)
  · rw [if_neg hc] at hseal; exact Option.noConfusion hseal

/-- **C1 witness**: the round-trip theorem applied to a concrete hash
function, determinant assignment, header and nonce for which the seal
condition holds. -/
theorem zpow_seal_verify_roundtrip_holds :
    verifyTarget (fun _ => 0) (fun _ _ => (10 : ℚ) ^ 40)
      (ZBlock.mk ⟨5, 1000, toString 7, 0⟩ 0).header = none ∧
    (ZBlock.mk ⟨5, 1000, toString 7, 0⟩ 0).header.witness = toString 7 ∧
    (ZBlock.mk ⟨5, 1000, toString 7, 0⟩ 0).headerHash =
      (fun _ => 0) (ZBlock.mk ⟨5, 1000, toString 7, 0⟩ 0).header ∧
    (ZBlock.mk ⟨5, 1000, toString 7, 0⟩ 0).header.difficulty =
      (⟨5, 1000, "", 0⟩ : ZHeader).difficulty ∧
    (ZBlock.mk ⟨5, 1000, toString 7, 0⟩ 0).header.height =
      (⟨5, 1000, "", 0⟩ : ZHeader).height ∧
    (∀ h' : ZHeader, verifyTarget (fun _ => 0) (fun _ _ => (10 : ℚ) ^ 40) h' =
        some .blockNonceInvalid ↔
      (fun _ _ => (10 : ℚ) ^ 40) ((fun _ => 0) h') h'.height <
        (getMiningTarget h'.difficulty : ℚ)) ∧
    (∀ d : Nat, getMiningTarget d = min (d * multiplier) maxDet30x30) := by
  refine zpow_seal_verify_roundtrip (fun _ => 0) (fun _ _ => (10 : ℚ) ^ 40)
    ⟨5, 1000, "", 0⟩ 7 (ZBlock.mk ⟨5, 1000, toString 7, 0⟩ 0) ?_
  unfold startMiningAttempt
  rw [if_pos]
  norm_num [getMiningTarget, multiplier, maxDet30x30]

/-- Length of the `randomDeletes` loop result: starting at counter `i` with
enough fuel, exactly `(deleteSize - i + 1) / 2` entries are removed (the
counter advances by two per deletion). -/
theorem randomDeletesLoop_length (oracle : Nat → Nat) (deleteSize : Nat) :
    ∀ fuel i content, deleteSize ≤ i + List.length content →
      deleteSize ≤ 2 * fuel + i →
      (randomDeletesLoop oracle deleteSize fuel i content).length =
        content.length - (deleteSize - i + 1) / 2 := by
  intro fuel
  induction fuel with
  | zero =>
    intro i content _ hfuel
    simp only [randomDeletesLoop]
    omega
  | succ n ih =>
    intro i content hlen hfuel
    simp only [randomDeletesLoop]
    by_cases hi : i < deleteSize
    · rw [if_pos hi]
      have hpos : 0 < content.length := by omega
      have herase : (content.eraseIdx (oracle i % content.length)).length =
          content.length - 1 := by
        rw [List.length_eraseIdx]
        simp [Nat.mod_lt _ hpos]
      rw [ih (i + 1 + 1) _ (by omega) (by omega), herase]
      omega
    · rw [if_neg hi]
      omega

/-- Every cell a `genRow` fold accumulates is an `Int63n(3)` draw, hence `< 3`. -/
theorem genRowFold_cells_lt (g : StreamGen) :
    ∀ (l : List Nat) (init : List Nat × Nat × Nat), (∀ c ∈ init.1, c < 3) →
      ∀ c ∈ (l.foldl (fun acc _ => genRowStep g acc) init).1, c < 3 := by
  intro l
  induction l with
  | nil => intro init h; exact h
  | cons x xs ih =>
    intro init h
    simp only [List.foldl_cons]
    apply ih
    intro c hc
    unfold genRowStep at hc
    rcases List.mem_append.mp hc with h1 | h2
    · exact h c h1
    · rw [List.mem_singleton.mp h2]
      exact g.int63n_range 3 _ (by norm_num)

/-- Every cell of a generated row is `< 3`. -/
theorem genRow_cells_lt (g : StreamGen) (dim s0 cur0 : Nat) :
    ∀ c ∈ (genRow g dim s0 cur0).1, c < 3 := by
  unfold genRow
  exact genRowFold_cells_lt g (List.range dim) ([], cur0, s0) (by simp)

/-- Every cell a matrix fold accumulates is `< 3`. -/
theorem matFold_cells_lt (g : StreamGen) (lanes : List Nat) (seedF : Nat → Nat) (dim : Nat) :
    ∀ (l : List Nat) (init : List (List Nat) × Nat),
      (∀ row ∈ init.1, ∀ c ∈ row, c < 3) →
      ∀ row ∈ (l.foldl (matStep g lanes seedF dim) init).1, ∀ c ∈ row, c < 3 := by
  intro l
  induction l with
  | nil => intro init h; exact h
  | cons x xs ih =>
    intro init h
    simp only [List.foldl_cons]
    apply ih
    intro row hrow
    unfold matStep at hrow
    rcases List.mem_append.mp hrow with h1 | h2
    · exact h row h1
    · rw [List.mem_singleton.mp h2]
      exact genRow_cells_lt g dim _ _

/-- **C7** (matrix seed generation, amended).  At *every* height — below the
fork as well as at or above it — each cell of the generated matrix is drawn
by `Int63n(3)` and so lies in `[0, 3)`; the fork changes only the stream
source: the build equals `generateRandomMatWith` instantiated with the Emery
source at or above `EmeryForkHeight` and with the legacy source below it. -/
theorem generateRandomMat_cells_lt_three (g : StreamGen) (hashBytes : List Nat)
    (height : Nat) :
    (∀ row ∈ generateRandomMat g hashBytes 30 height, ∀ c ∈ row, c < 3) ∧
    generateRandomMat g hashBytes 30 height =
      generateRandomMatWith g
        (if EmeryForkHeight ≤ height then g.seedEmery else g.seedLegacy) hashBytes 30 := by
  constructor
  · unfold generateRandomMat
    exact matFold_cells_lt g _ _ 30 (List.range 30) ([], 0) (by simp)
  · unfold generateRandomMat generateRandomMatWith
    by_cases hf : EmeryForkHeight ≤ height
    · simp only [hf, if_true]
    · simp only [hf, if_false]

/-- **C7 counterexample**.  The claim says pre-fork cells are drawn from
`[0, 2)`.  Height `0` is below `EmeryForkHeight`, yet with a conforming
stream the code produces the cell value `2`: pre-fork cells are `Int63n(3)`
draws like post-fork ones. -/
theorem generateRandomMat_preFork_cell_two :
    (0 : Nat) < EmeryForkHeight ∧
    ((generateRandomMat streamAlwaysTwo (List.replicate 32 0) 30 0).getD 0 []).getD 0 0
      = 2 := by
  exact ⟨by decide, by decide⟩

/-- **C8** (duplicate-tx window eviction).  `randomDeletes` removes
`(len/20 + 1) / 2` entries — about **half** of the `len / PercentDelete`
its own doc comment (and the claim) promises, because the loop increments
its counter twice per iteration.  Concretely, a window at capacity
`40` holding `40` entries evicts `1` entry and lands at `40` after the
insert, where the documented behaviour (evict `40/20 = 2`) would land
at `39`. -/
theorem cachedTxs_randomDeletes_removes_half :
    (∀ oracle : Nat → Nat, ∀ c : CachedTxs,
      (c.randomDeletes oracle).content.length =
        c.content.length - (c.content.length / PercentDelete + 1) / 2) ∧
    (CachedTxs.add (fun _ => 0) ⟨40, List.range 40⟩ 1000).content.length = 40 ∧
    (40 - 40 / PercentDelete) + 1 = 39 := by
  refine ⟨?_, ?_, by decide⟩
  · intro oracle c
    unfold CachedTxs.randomDeletes
    exact randomDeletesLoop_length oracle _ _ 0 c.content
      (by simpa using Nat.div_le_self c.content.length PercentDelete) (by omega)
  · decide

/-! ## Debt-pool theorems (C2, C10) -/

/-- A debt that passes every static check of `Debt.Validate` against
`targetShard = 2` under the hash function `fun _ => 42`: source shard `1`,
destination shard `2`, positive price. -/
def c2Debt : Debt := ⟨42, ⟨0, ⟨1, 0⟩, 0, ⟨2, 0⟩, 0, 1, []⟩⟩

/-- A debt-pool state whose `to_confirm` map holds exactly `c2Debt`, with an
empty pending pool. -/
def c2State : DebtPoolState := ⟨⟨10, [(42, c2Debt)]⟩, ⟨10, [], ⟨[]⟩, []⟩⟩

/-- The verifier report of the disputed case: no error, not confirmed, not
packed. -/
def c2Report : VerifierReport := ⟨false, false, none⟩

theorem debtValidate_after_static (hashFn : DebtData → Nat) (r : VerifierReport)
    (localShard : Nat) (d : Debt)
    (h1 : d.data.fromAddr.shard ≠ localShard)
    (h2 : ¬(localShard ≠ 0 ∧ d.data.account.shard ≠ localShard))
    (h3 : d.hash = hashFn d.data)
    (h4 : 0 < d.data.price) :
    debtValidate hashFn (some r) d false localShard
      = if r.confirmed then (r.packed, none)
        else (r.packed, some (.verifierFailed r.err)) := by
  unfold debtValidate
  rw [if_neg h1, if_neg h2, if_neg (not_not_intro h3), if_neg (not_le.mpr h4)]
  cases hcr : r.confirmed
  · simp [hcr]
  · simp [hcr]

/-- **C2** (counterexample to the spec's disposition table).  With the
verifier reporting `confirmed = false`, `err = nil` and `packed = false`,
the claim says the debt is *kept* in `to_confirm` and retried; but
`Debt.Validate` builds `NewStackedError(nil, ErrMsgVerifierFailed)` — a
non-nil error — whenever `confirmed` is false and the debt is not packed, so
`DoMulCheckingDebtHandler` treats the round as an unrecoverable failure and
*drops* the debt from `to_confirm`. -/
theorem debt_handler_drops_on_nil_err_unconfirmed :
    c2Report.err = none ∧ c2Report.confirmed = false ∧ c2Report.packed = false ∧
    c2State.toConfirmed.has c2Debt.hash = true ∧
    (DoMulCheckingDebtHandler (fun _ => 42) (some c2Report) 2 0 c2State
        c2Debt).1.toConfirmed.has c2Debt.hash = false ∧
    (DoMulCheckingDebtHandler (fun _ => 42) (some c2Report) 2 0 c2State
        c2Debt).2 ≠ none := by
  decide

/-- **C2** (amended disposition).  For a debt passing the static checks,
one verification round behaves as follows.  `confirmed = true`: the debt is
handed to the pending pool's `addObject`; on success it is removed from
`to_confirm` and the round reports no error, on failure `to_confirm` is
untouched and the pool error is returned.  `confirmed = false`: the round
always reports a (stacked) verifier error, and the debt is kept in
`to_confirm` exactly when `packed = true` — whether or not the verifier
supplied an inner error. -/
theorem debt_handler_disposition_amended (hashFn : DebtData → Nat)
    (r : VerifierReport) (localShard now : Nat) (st : DebtPoolState) (d : Debt)
    (h1 : d.data.fromAddr.shard ≠ localShard)
    (h2 : ¬(localShard ≠ 0 ∧ d.data.account.shard ≠ localShard))
    (h3 : d.hash = hashFn d.data)
    (h4 : 0 < d.data.price) :
    (r.confirmed = true →
      (DoMulCheckingDebtHandler hashFn (some r) localShard now st d).1.pool
          = (Pool.addObject (fun _ => none) now st.pool d.toPoolObject).1 ∧
      ((Pool.addObject (fun _ => none) now st.pool d.toPoolObject).2 = none →
        (DoMulCheckingDebtHandler hashFn (some r) localShard now st d).1.toConfirmed
            = st.toConfirmed.removeByValue d ∧
        (DoMulCheckingDebtHandler hashFn (some r) localShard now st d).2 = none) ∧
      ((Pool.addObject (fun _ => none) now st.pool d.toPoolObject).2 ≠ none →
        (DoMulCheckingDebtHandler hashFn (some r) localShard now st d).1.toConfirmed
            = st.toConfirmed ∧
        (DoMulCheckingDebtHandler hashFn (some r) localShard now st d).2
            = ((Pool.addObject (fun _ => none) now st.pool d.toPoolObject).2).map
                DebtErr.poolAdd)) ∧
    (r.confirmed = false → r.packed = false →
      DoMulCheckingDebtHandler hashFn (some r) localShard now st d
          = (⟨st.toConfirmed.removeByValue d, st.pool⟩,
             some (DebtErr.verifierFailed r.err))) ∧
    (r.confirmed = false → r.packed = true →
      DoMulCheckingDebtHandler hashFn (some r) localShard now st d
          = (st, some (DebtErr.verifierFailed r.err))) := by
  have hval := debtValidate_after_static hashFn r localShard d h1 h2 h3 h4
  refine ⟨?_, ?_, ?_⟩
  · intro hc
    unfold DoMulCheckingDebtHandler
    rw [hval, hc]
    simp only [if_true]
    split
    · rename_i heq
      exact ⟨rfl, fun _ => ⟨rfl, rfl⟩, fun hne => absurd heq hne⟩
    · rename_i e heq
      refine ⟨rfl, fun hn => ?_, fun _ => ⟨rfl, by rw [heq]; rfl⟩⟩
      rw [heq] at hn
      exact Option.noConfusion hn
  · intro hc hp
    unfold DoMulCheckingDebtHandler
    rw [hval, hc, hp]
    simp
  · intro hc hp
    unfold DoMulCheckingDebtHandler
    rw [hval, hc, hp]
    simp

/-- The confirmed-case verifier report used as the witness input. -/
def c2ReportOk : VerifierReport := ⟨false, true, none⟩

/-- The amended disposition instantiated at a concrete debt, state and
confirmed verifier report, with every static-check hypothesis discharged by
computation. -/
theorem debt_handler_disposition_amended_holds :
    c2Debt.data.fromAddr.shard ≠ 2 ∧
    ¬((2 : Nat) ≠ 0 ∧ c2Debt.data.account.shard ≠ 2) ∧
    c2Debt.hash = (fun _ => 42) c2Debt.data ∧
    0 < c2Debt.data.price ∧
    ((c2ReportOk.confirmed = true →
      (DoMulCheckingDebtHandler (fun _ => 42) (some c2ReportOk) 2 0 c2State
          c2Debt).1.pool
          = (Pool.addObject (fun _ => none) 0 c2State.pool c2Debt.toPoolObject).1 ∧
      ((Pool.addObject (fun _ => none) 0 c2State.pool c2Debt.toPoolObject).2 = none →
        (DoMulCheckingDebtHandler (fun _ => 42) (some c2ReportOk) 2 0 c2State
            c2Debt).1.toConfirmed
            = c2State.toConfirmed.removeByValue c2Debt ∧
        (DoMulCheckingDebtHandler (fun _ => 42) (some c2ReportOk) 2 0 c2State
            c2Debt).2 = none) ∧
      ((Pool.addObject (fun _ => none) 0 c2State.pool c2Debt.toPoolObject).2 ≠ none →
        (DoMulCheckingDebtHandler (fun _ => 42) (some c2ReportOk) 2 0 c2State
            c2Debt).1.toConfirmed = c2State.toConfirmed ∧
        (DoMulCheckingDebtHandler (fun _ => 42) (some c2ReportOk) 2 0 c2State
            c2Debt).2
            = ((Pool.addObject (fun _ => none) 0 c2State.pool
                c2Debt.toPoolObject).2).map DebtErr.poolAdd)) ∧
    (c2ReportOk.confirmed = false → c2ReportOk.packed = false →
      DoMulCheckingDebtHandler (fun _ => 42) (some c2ReportOk) 2 0 c2State c2Debt
          = (⟨c2State.toConfirmed.removeByValue c2Debt, c2State.pool⟩,
             some (DebtErr.verifierFailed c2ReportOk.err))) ∧
    (c2ReportOk.confirmed = false → c2ReportOk.packed = true →
      DoMulCheckingDebtHandler (fun _ => 42) (some c2ReportOk) 2 0 c2State c2Debt
          = (c2State, some (DebtErr.verifierFailed c2ReportOk.err)))) :=
  ⟨by decide, by decide, by decide, by decide,
   debt_handler_disposition_amended (fun _ => 42) c2ReportOk 2 0 c2State c2Debt
     (by decide) (by decide) (by decide) (by decide)⟩

/-- A fresh debt for the `AddDebt` witness: not in the `to_confirm` map and
not in the pending pool. -/
def c10Debt : Debt := ⟨7, ⟨0, ⟨1, 0⟩, 0, ⟨2, 0⟩, 0, 1, []⟩⟩

/-- An empty debt-pool state whose `to_confirm` map has capacity `1`. -/
def c10State : DebtPoolState := ⟨⟨1, []⟩, ⟨4, [], ⟨[]⟩, []⟩⟩

/-- **C10** (silent duplicate drop at the debt entry point).  `AddDebt`
returns `nil` and changes nothing when the debt is nil, already in the
`to_confirm` map, or already in the pending pool; otherwise the debt is
inserted into the bounded `to_confirm` map, a non-nil error arises exactly
when that map is at capacity (in which case the state is unchanged), and on
success only the `to_confirm` map grows — the pending pool is untouched. -/
theorem addDebt_silent_duplicate_drop (st : DebtPoolState) (d : Debt) :
    AddDebt st none = (st, none) ∧
    (st.toConfirmed.has d.hash = true → AddDebt st (some d) = (st, none)) ∧
    (st.toConfirmed.has d.hash = false →
      (st.pool.GetObject d.hash).isSome = true →
      AddDebt st (some d) = (st, none)) ∧
    (st.toConfirmed.has d.hash = false →
      (st.pool.GetObject d.hash).isSome = false →
      (((AddDebt st (some d)).2 ≠ none)
          ↔ st.toConfirmed.capacity ≤ st.toConfirmed.count) ∧
      ((AddDebt st (some d)).2 ≠ none → (AddDebt st (some d)).1 = st) ∧
      ((AddDebt st (some d)).2 = none →
        (AddDebt st (some d)).1.pool = st.pool ∧
        (AddDebt st (some d)).1.toConfirmed.has d.hash = true)) := by
  refine ⟨rfl, ?_, ?_, ?_⟩
  · intro hhas
    simp [AddDebt, hhas]
  · intro hhas hpool
    simp [AddDebt, hhas, hpool]
  · intro hhas hpool
    have hred : AddDebt st (some d)
        = ({ st with toConfirmed := (st.toConfirmed.add d).1 },
           (st.toConfirmed.add d).2) := by
      simp [AddDebt, hhas, hpool]
    rw [hred]
    unfold ConcurrentDebtMap.add ConcurrentDebtMap.count
    split
    · rename_i hcap
      refine ⟨⟨fun _ => hcap, fun _ => by simp⟩, fun _ => rfl, fun hn => ?_⟩
      exact Option.noConfusion hn
    · rename_i hcap
      refine ⟨⟨fun h => absurd rfl h, fun h => absurd h hcap⟩,
        fun hne => absurd rfl hne, fun _ => ⟨rfl, ?_⟩⟩
      simp [ConcurrentDebtMap.has]

/-- The `AddDebt` characterisation instantiated at a fresh debt and an empty
capacity-1 state. -/
theorem addDebt_silent_duplicate_drop_holds :
    AddDebt c10State none = (c10State, none) ∧
    (c10State.toConfirmed.has c10Debt.hash = true →
      AddDebt c10State (some c10Debt) = (c10State, none)) ∧
    (c10State.toConfirmed.has c10Debt.hash = false →
      (c10State.pool.GetObject c10Debt.hash).isSome = true →
      AddDebt c10State (some c10Debt) = (c10State, none)) ∧
    (c10State.toConfirmed.has c10Debt.hash = false →
      (c10State.pool.GetObject c10Debt.hash).isSome = false →
      (((AddDebt c10State (some c10Debt)).2 ≠ none)
          ↔ c10State.toConfirmed.capacity ≤ c10State.toConfirmed.count) ∧
      ((AddDebt c10State (some c10Debt)).2 ≠ none →
        (AddDebt c10State (some c10Debt)).1 = c10State) ∧
      ((AddDebt c10State (some c10Debt)).2 = none →
        (AddDebt c10State (some c10Debt)).1.pool = c10State.pool ∧
        (AddDebt c10State (some c10Debt)).1.toConfirmed.has c10Debt.hash = true)) :=
  addDebt_silent_duplicate_drop c10State c10Debt

end Scdo
